import Mathlib

/-!
The file `common.go` of go-aws-auth: a shallow embedding.

Go `string` values are embedded as Lean `String` (text); the separators and
prefixes the code looks for (`.`, `s3-`, newline) are ASCII, so working on
characters agrees with Go's byte indexing on them.  `[]byte` is `List UInt8`.
A run-time panic (index or slice out of range) is the result `none`.
Package-level variables and the traffic of the process form an explicit state
that every stateful function takes and returns.
-/

namespace AwsAuth

/-! ## Go built-ins used by `serviceAndRegion` -/

/-- The pieces of `cs` between occurrences of `sep`; there is always at least one piece. -/
def splitChars (sep : Char) : List Char → List (List Char)
  | [] => [[]]
  | c :: cs =>
    if c = sep then [] :: splitChars sep cs
    else
      match splitChars sep cs with
      | [] => [[c]]
      | p :: ps => (c :: p) :: ps

/-- Go `strings.Split(s, sep)` for a separator of one character. -/
def Split (s : String) (sep : Char) : List String :=
  (splitChars sep s.data).map String.mk

/-- Go `strings.HasPrefix(s, prefix)`. -/
def HasPrefix (s pre : String) : Bool :=
  pre.data.isPrefixOf s.data

/-- Go `s[:hi]`: panics (here `none`) when `hi` exceeds the length. -/
def sliceTo (s : String) (hi : Nat) : Option String :=
  if hi ≤ s.data.length then some (String.mk (s.data.take hi)) else none

/-- Go `s[lo:]`: panics (here `none`) when `lo` exceeds the length. -/
def sliceFrom (s : String) (lo : Nat) : Option String :=
  if lo ≤ s.data.length then some (String.mk (s.data.drop lo)) else none

/-! ## `serviceAndRegion` -/

/-- The function `serviceAndRegion` of `common.go`; every `parts[i]` and every slice is a
checked access, so `none` stands for a panic. -/
def serviceAndRegion (host : String) : Option (String × String) := do
  let parts := Split host '.'
  let service ← parts[0]?
  if parts.length ≥ 4 then
    if (← parts[1]?) = "s3" then
      let region ← parts[0]?
      let service ← parts[1]?
      pure (service, region)
    else
      let region ← parts[1]?
      pure (service, region)
  else
    if HasPrefix (← parts[0]?) "s3-" then
      let service ← sliceTo (← parts[0]?) 2
      let region ← sliceFrom (← parts[0]?) 3
      pure (service, region)
    else
      pure (service, "us-east-1")

/-- The first dot-separated label of a host: everything before its first dot. -/
def firstLabel (host : String) : String :=
  String.mk (host.data.takeWhile (fun c => c ≠ '.'))

/-- The number of dot-separated labels of a host: one more than the number of dots. -/
def labelCount (host : String) : Nat :=
  host.data.count '.' + 1

/-! ## Process state and its surroundings -/

/-- Modelled from the spec: the record type `Credentials` is declared outside `common.go`.
The spec's data model gives it an access key id, a secret access key, a security token and an
optional expiration timestamp; the zero value `Credentials{}` has every field empty. -/
structure Credentials where
  AccessKeyID : String := ""
  SecretAccessKey : String := ""
  SecurityToken : String := ""
  Expiration : Option Nat := none
deriving DecidableEq, Repr

/-- The struct `location` of `common.go`. -/
structure location where
  ec2 : Bool := false
  checked : Bool := false
deriving DecidableEq, Repr

/-- What surrounds the package: the operating system, the network, the standard library
calls whose outcome the code branches on, and the declarations of the package that live outside
`common.go`. -/
structure Host where
  /-- The constant `envAccessKeyID`, declared outside `common.go`: the name of a variable. -/
  envAccessKeyID : String
  /-- The constant `envSecretAccessKey`, declared outside `common.go`. -/
  envSecretAccessKey : String
  /-- The constant `envSecurityToken`, declared outside `common.go`. -/
  envSecurityToken : String
  /-- Go `os.Getenv`: the value of a variable, empty when unset. -/
  getenv : String → String
  /-- The method `expired` of `Credentials`, declared outside `common.go`: whether a record
  counts as expired at the moment `checkKeys` asks. -/
  expired : Credentials → Bool
  /-- Whether the TCP dial to 169.254.169.254:80 connects, for the n-th dial of the process. -/
  dial : Nat → Bool
  /-- Whether `http.NewRequest("GET", url, nil)` succeeds. -/
  newRequest : String → Bool
  /-- Go `client.Do`: the body of the response to the n-th request of the process, or `none`
  when the transport fails. -/
  send : Nat → String → Option String
  /-- Whether a response body reports the end of its stream together with its last bytes; a
  reader may as well report it on the read after. -/
  eofWithData : Bool
  /-- Go `json.Unmarshal(body, &creds)`: the contents of `creds` afterwards and whether the
  returned error is nil. -/
  unmarshal : String → Credentials → Credentials × Bool

/-- The package-level variables `Keys` and `loc`, with the network activity of the process so
far: how many TCP dials it made and which URLs it requested, oldest first. -/
structure Process where
  Keys : Option Credentials := none
  loc : Option location := none
  dials : Nat := 0
  requests : List String := []
deriving DecidableEq, Repr

/-! ## `onEC2` -/

/-- The function `onEC2` of `common.go`. -/
def onEC2 (h : Host) (p : Process) : Bool × Process :=
  let l : location := match p.loc with
    | none => {}
    | some l => l
  if !l.checked then
    let connected := h.dial p.dials
    let l : location := if !connected then { l with ec2 := false } else { l with ec2 := true }
    let l : location := { l with checked := true }
    (l.ec2, { p with loc := some l, dials := p.dials + 1 })
  else
    (l.ec2, { p with loc := some l })

/-- A sequence of calls of `onEC2`, one per entry of `hs` (the surroundings at the time of
that call): the booleans returned, in order, and the state afterwards. -/
def onEC2Calls : List Host → Process → List Bool × Process
  | [], p => ([], p)
  | h :: hs, p =>
    let r := onEC2 h p
    let rs := onEC2Calls hs r.2
    (r.1 :: rs.1, rs.2)

/-! ## The metadata client -/

/-- Go `dropCR` of package `bufio`: drop one trailing carriage return. -/
def dropCR (data : List Char) : List Char :=
  if data.getLast? = some '\r' then data.dropLast else data

/-- Go `bufio.ScanLines` on the unread input, all of which is at hand: the next token and the
input left after it, or `none` when the input is used up. -/
def ScanLines (data : List Char) : Option (List Char × List Char) :=
  if data = [] then none
  else if '\n' ∈ data then
    some (dropCR (data.takeWhile (fun c => c ≠ '\n')),
      (data.dropWhile (fun c => c ≠ '\n')).drop 1)
  else some (dropCR data, [])

/-- Go `bufio.MaxScanTokenSize`, the size the buffer of a `Scanner` grows to at most. -/
def MaxScanTokenSize : Nat := 64 * 1024

/-- The length in bytes of a text, UTF-8 encoded. -/
def byteLen (cs : List Char) : Nat :=
  (cs.flatMap String.utf8EncodeChar).length

/-- Whether `Scan` gets the next token of the unread input into its buffer.  A line has to fit
with its newline.  A last line without newline has to leave the buffer short of full, or to
fill it exactly when the end of the stream comes with the last bytes; otherwise `Scan` sets
`ErrTooLong` and returns false. -/
def fitsBuffer (eofWithData : Bool) (data : List Char) : Bool :=
  if '\n' ∈ data then
    decide (byteLen (data.takeWhile (fun c => c ≠ '\n')) + 1 ≤ MaxScanTokenSize)
  else
    decide (byteLen data < MaxScanTokenSize) ||
      (decide (byteLen data = MaxScanTokenSize) && eofWithData)

/-- The loop `for scanner.Scan() { roles = append(roles, scanner.Text()) }`, which never looks
at `scanner.Err()`: it ends when the input is used up and also when a token does not fit the
buffer.  Each round consumes input, so `fuel` larger than the input's length lets it run to the
end. -/
def scanLoop : Nat → Bool → List Char → List String
  | 0, _, _ => []
  | fuel + 1, eofWithData, data =>
    if fitsBuffer eofWithData data then
      match ScanLines data with
      | none => []
      | some (token, rest) => String.mk token :: scanLoop fuel eofWithData rest
    else []

/-- The URL both metadata requests start from. -/
def securityCredentialsURL : String :=
  "http://169.254.169.254/latest/meta-data/iam/security-credentials/"

/-- The function `getIAMRoleList` of `common.go`. -/
def getIAMRoleList (h : Host) (p : Process) : List String × Process :=
  let roles : List String := []
  let url := securityCredentialsURL
  if !h.newRequest url then (roles, p)
  else
    match h.send p.requests.length url with
    | none => (roles, { p with requests := p.requests ++ [url] })
    | some body =>
      (roles ++ scanLoop (body.length + 1) h.eofWithData body.data,
        { p with requests := p.requests ++ [url] })

/-- The function `getIAMRoleCredentials` of `common.go`. -/
def getIAMRoleCredentials (h : Host) (p : Process) : Credentials × Process :=
  let (roles, p) := getIAMRoleList h p
  match roles with
  | [] => ({}, p)
  | role :: _ =>
    let url := securityCredentialsURL
    let roleurl := url ++ role
    if !h.newRequest roleurl then ({}, p)
    else
      match h.send p.requests.length roleurl with
      | none => ({}, { p with requests := p.requests ++ [roleurl] })
      | some rolebuf =>
        let p : Process := { p with requests := p.requests ++ [roleurl] }
        let (creds, ok) := h.unmarshal rolebuf ({} : Credentials)
        if !ok then ({}, p) else (creds, p)

/-- Every line of the text, a carriage return before its newline included, is shorter than
64 KiB. -/
def linesFit (body : String) : Prop :=
  ∀ piece ∈ splitChars '\n' body.data, byteLen piece < MaxScanTokenSize

instance (body : String) : Decidable (linesFit body) :=
  inferInstanceAs (Decidable (∀ piece ∈ splitChars '\n' body.data, byteLen piece < MaxScanTokenSize))

/-- The newline-delimited lines of a text: the pieces between newlines, without the empty
piece after a final newline, each without the carriage return that may precede its newline. -/
def textLines (body : String) : List String :=
  let pieces := splitChars '\n' body.data
  let pieces := if pieces.getLast? = some [] then pieces.dropLast else pieces
  pieces.map (fun piece => String.mk (dropCR piece))

/-! ## `checkKeys` -/

/-- The record `Keys` points to; `checkKeys` reads it only after making `Keys` non-nil. -/
def heldKeys (p : Process) : Credentials :=
  match p.Keys with
  | none => {}
  | some k => k

/-- The function `checkKeys` of `common.go`. -/
def checkKeys (h : Host) (p : Process) : Process :=
  let p : Process := match p.Keys with
    | none =>
      let fromEnv : Credentials :=
        { AccessKeyID := h.getenv h.envAccessKeyID
          SecretAccessKey := h.getenv h.envSecretAccessKey
          SecurityToken := h.getenv h.envSecurityToken }
      { p with Keys := some fromEnv }
    | some _ => p
  let p : Process :=
    if (heldKeys p).AccessKeyID = "" then
      let r := onEC2 h p
      if r.1 then
        let c := getIAMRoleCredentials h r.2
        { c.2 with Keys := some c.1 }
      else r.2
    else p
  let p : Process :=
    if h.expired (heldKeys p) then
      let r := onEC2 h p
      if r.1 then
        let c := getIAMRoleCredentials h r.2
        { c.2 with Keys := some c.1 }
      else r.2
    else p
  p

/-- The record `checkKeys` starts from: the one held, or the one read from the environment
when none is held. -/
def startingKeys (h : Host) (p : Process) : Credentials :=
  match p.Keys with
  | none =>
    { AccessKeyID := h.getenv h.envAccessKeyID
      SecretAccessKey := h.getenv h.envSecretAccessKey
      SecurityToken := h.getenv h.envSecurityToken
      Expiration := none }
  | some k => k

/-- One `if cond && onEC2() { Keys = getIAMRoleCredentials() }` statement of `checkKeys`. -/
def refreshIf (h : Host) (cond : Bool) (p : Process) : Process :=
  if cond then
    if (onEC2 h p).1 then
      { (getIAMRoleCredentials h (onEC2 h p).2).2 with
        Keys := some (getIAMRoleCredentials h (onEC2 h p).2).1 }
    else (onEC2 h p).2
  else p

/-! ## `readAndReplaceBody` -/

/-- An `io.ReadCloser` as a request holds it: the bytes it has yet to deliver, and whether
reading it to the end stops on an error instead of the end of the stream. -/
structure ReadCloser where
  unread : List UInt8
  failing : Bool := false
deriving DecidableEq, Repr

/-- Go `ioutil.ReadAll`: the bytes read, whether an error came back with them, and the reader
afterwards, which has nothing left to deliver. -/
def ReadAll (r : ReadCloser) : List UInt8 × Bool × ReadCloser :=
  (r.unread, r.failing, { r with unread := [] })

/-- Go `ioutil.NopCloser(bytes.NewReader(payload))`. -/
def NewReader (payload : List UInt8) : ReadCloser :=
  { unread := payload, failing := false }

/-- The part of `http.Request` that `readAndReplaceBody` touches. -/
structure Request where
  Body : Option ReadCloser
deriving DecidableEq, Repr

/-- The function `readAndReplaceBody` of `common.go`: the bytes returned and the request
afterwards. -/
def readAndReplaceBody (req : Request) : List UInt8 × Request :=
  match req.Body with
  | none => ([], req)
  | some body =>
    let (payload, _, _) := ReadAll body
    (payload, { req with Body := some (NewReader payload) })

/-! ## `augmentRequestQuery` -/

/-- Go `url.Values`, an allocated `map[string][]string`, as an association list: the map holds
for a key the values of the first entry with that key. -/
abbrev Values := List (String × List String)

/-- Go `v[key]`: the values held for `key`, none when the key is absent. -/
def Values.index : Values → String → List String
  | [], _ => []
  | (k, vs) :: rest, key => if k = key then vs else Values.index rest key

/-- The keys of the map, each once: what `for k := range v` visits. -/
def Values.keys (v : Values) : List String :=
  (v.map Prod.fst).dedup

/-- Go `v.Set(key, value)`, that is `v[key] = []string{value}`. -/
def Values.Set (v : Values) (key value : String) : Values :=
  (key, [value]) :: v.filter (fun e => e.1 ≠ key)

/-- Go `v[key] = append(v[key], value)`. -/
def Values.Add : Values → String → String → Values
  | [], key, value => [(key, [value])]
  | (k, vs) :: rest, key, value =>
    if k = key then (k, vs ++ [value]) :: rest else (k, vs) :: Values.Add rest key value

/-- Go `req.URL.Query()`, from the key and value pairs `url.ParseQuery` reads off the raw
query, decoded, in the order they stand there: it appends each value to the entry of its
key. -/
def Query (pairs : List (String × String)) : Values :=
  pairs.foldl (fun m kv => Values.Add m kv.1 kv.2) []

/-- Go's comparison `a <= b` of strings: lexicographic, byte by byte, which on UTF-8 text is
the order of the code points. -/
def lexLE : List Char → List Char → Bool
  | [], _ => true
  | _ :: _, [] => false
  | a :: as, b :: bs =>
    if a.toNat < b.toNat then true
    else if a.toNat = b.toNat then lexLE as bs
    else false

/-- The order `sort.Strings` sorts by. -/
def StrLE (a b : String) : Prop := lexLE a.data b.data = true

instance : DecidableRel StrLE :=
  fun a b => inferInstanceAs (Decidable (lexLE a.data b.data = true))

/-- Go `sort.Strings`. -/
def sortStrings (keys : List String) : List String :=
  keys.insertionSort StrLE

/-- The digits `upperhex` of package `net/url`. -/
def upperhex (n : Nat) : Char :=
  "0123456789ABCDEF".data.getD n '0'

/-- Go `shouldEscape(c, encodeQueryComponent)`: everything but letters, digits and `-_.~`. -/
def shouldEscape (c : UInt8) : Bool :=
  let n := c.toNat
  if (97 ≤ n ∧ n ≤ 122) ∨ (65 ≤ n ∧ n ≤ 90) ∨ (48 ≤ n ∧ n ≤ 57) then false
  else if n = 45 ∨ n = 95 ∨ n = 46 ∨ n = 126 then false
  else true

/-- What `escape` writes for one byte in query-component mode. -/
def escapeByte (c : UInt8) : List Char :=
  if c.toNat = 32 then ['+']
  else if shouldEscape c then ['%', upperhex (c.toNat / 16), upperhex (c.toNat % 16)]
  else [Char.ofNat c.toNat]

/-- Go `url.QueryEscape`, over the UTF-8 bytes of the text. -/
def QueryEscape (s : String) : String :=
  String.mk ((s.data.flatMap String.utf8EncodeChar).flatMap escapeByte)

/-- Go `v.Encode()`. -/
def Values.Encode (v : Values) : String :=
  let keys := sortStrings v.keys
  keys.foldl (fun buf k =>
    let vs := v.index k
    let keyEscaped := QueryEscape k
    vs.foldl (fun buf value =>
      let buf := if buf.length > 0 then buf ++ "&" else buf
      buf ++ keyEscaped ++ "=" ++ QueryEscape value) buf) ""

/-- The function `augmentRequestQuery` of `common.go`.  `visit` holds the entries of
`req.URL.Query()` in the order the `range` loop comes by them; the result is the new
`req.URL.RawQuery` and the map `values` as the loop leaves it. -/
def augmentRequestQuery (visit : Values) (values : Values) : String × Values :=
  let values := visit.foldl (fun values entry =>
    entry.2.foldl (fun values val => Values.Set values entry.1 val) values) values
  (Values.Encode values, values)

/-- The inner loop of `augmentRequestQuery` for one key. -/
def setEach (v : Values) (key : String) (arr : List String) : Values :=
  arr.foldl (fun values val => Values.Set values key val) v

/-- The outer loop of `augmentRequestQuery`. -/
def setAll (visit : Values) (v : Values) : Values :=
  visit.foldl (fun values entry => setEach values entry.1 entry.2) v

/-! ## The merged query, as the specification words it -/

/-- The texts of `pieces` joined by `sep`. -/
def joinWith (sep : String) : List String → String
  | [] => ""
  | [x] => x
  | x :: y :: rest => x ++ sep ++ joinWith sep (y :: rest)

/-- One `key=value` pair of a query string, both sides escaped. -/
def queryPair (k value : String) : String :=
  QueryEscape k ++ "=" ++ QueryEscape value

/-- The query string that lists, for each key of `keys` in turn, each of its values under
`valuesOf` in turn. -/
def encodePairs (keys : List String) (valuesOf : String → List String) : String :=
  joinWith "&" (keys.flatMap (fun k => (valuesOf k).map (queryPair k)))

/-- The keys of the merged query, ascending: those of the request and those of `extra`. -/
def mergedKeys (pairs : List (String × String)) (extra : Values) : List String :=
  sortStrings ((pairs.map Prod.fst ++ extra.map Prod.fst).dedup)

/-- The values of a key in the merged query: a key present on the request carries the
request's values, in the order of the raw query, and a key present only in `extra` carries the
values `extra` holds for it. -/
def mergedValues (pairs : List (String × String)) (extra : Values) (k : String) : List String :=
  if k ∈ pairs.map Prod.fst then (pairs.filter (fun kv => kv.1 = k)).map Prod.snd
  else Values.index extra k

/-- One write of the loop of `Encode`: the separator when the buffer is not empty, then the
pair. -/
def writePair (buf piece : String) : String :=
  (if buf.length > 0 then buf ++ "&" else buf) ++ piece

/-! ## Digests

The digest functions of `crypto/sha256` (FIPS 180-4) and `crypto/md5` (RFC 1321) over 32-bit
words held as natural numbers, every sum and rotation reduced modulo `2 ^ 32`. -/

/-- Rotate a 32-bit word right by `n` places. -/
def rotr32 (x n : Nat) : Nat :=
  ((x >>> n) ||| (x <<< (32 - n))) % 2 ^ 32

/-- Rotate a 32-bit word left by `n` places. -/
def rotl32 (x n : Nat) : Nat :=
  ((x <<< n) ||| (x >>> (32 - n))) % 2 ^ 32

/-- The complement of a 32-bit word. -/
def not32 (x : Nat) : Nat :=
  (2 ^ 32 - 1) ^^^ (x % 2 ^ 32)

/-- The four bytes of a 32-bit word, most significant first. -/
def bigEndian32 (w : Nat) : List UInt8 :=
  [UInt8.ofNat (w / 2 ^ 24), UInt8.ofNat (w / 2 ^ 16), UInt8.ofNat (w / 2 ^ 8), UInt8.ofNat w]

/-- The four bytes of a 32-bit word, least significant first. -/
def littleEndian32 (w : Nat) : List UInt8 :=
  [UInt8.ofNat w, UInt8.ofNat (w / 2 ^ 8), UInt8.ofNat (w / 2 ^ 16), UInt8.ofNat (w / 2 ^ 24)]

/-- The words of a byte sequence, four bytes each, most significant byte first. -/
def bigEndianWords : List UInt8 → List Nat
  | b0 :: b1 :: b2 :: b3 :: rest =>
    (b0.toNat * 2 ^ 24 + b1.toNat * 2 ^ 16 + b2.toNat * 2 ^ 8 + b3.toNat) :: bigEndianWords rest
  | _ => []

/-- The words of a byte sequence, four bytes each, least significant byte first. -/
def littleEndianWords : List UInt8 → List Nat
  | b0 :: b1 :: b2 :: b3 :: rest =>
    (b0.toNat + b1.toNat * 2 ^ 8 + b2.toNat * 2 ^ 16 + b3.toNat * 2 ^ 24) ::
      littleEndianWords rest
  | _ => []

/-- The bytes that pad a message of `len` bytes up to a multiple of 64, before the eight
bytes of its bit length: one byte `0x80` and then zeros. -/
def padding (len : Nat) : List UInt8 :=
  0x80 :: List.replicate ((64 - (len + 9) % 64) % 64) 0

/-- The constants of the 64 rounds of SHA-256 (in hexadecimal to the right). -/
def sha256K : List Nat :=
  [ 1116352408, 1899447441, 3049323471, 3921009573, -- 428a2f98 71374491 b5c0fbcf e9b5dba5
    961987163, 1508970993, 2453635748, 2870763221, -- 3956c25b 59f111f1 923f82a4 ab1c5ed5
    3624381080, 310598401, 607225278, 1426881987, -- d807aa98 12835b01 243185be 550c7dc3
    1925078388, 2162078206, 2614888103, 3248222580, -- 72be5d74 80deb1fe 9bdc06a7 c19bf174
    3835390401, 4022224774, 264347078, 604807628, -- e49b69c1 efbe4786 0fc19dc6 240ca1cc
    770255983, 1249150122, 1555081692, 1996064986, -- 2de92c6f 4a7484aa 5cb0a9dc 76f988da
    2554220882, 2821834349, 2952996808, 3210313671, -- 983e5152 a831c66d b00327c8 bf597fc7
    3336571891, 3584528711, 113926993, 338241895, -- c6e00bf3 d5a79147 06ca6351 14292967
    666307205, 773529912, 1294757372, 1396182291, -- 27b70a85 2e1b2138 4d2c6dfc 53380d13
    1695183700, 1986661051, 2177026350, 2456956037, -- 650a7354 766a0abb 81c2c92e 92722c85
    2730485921, 2820302411, 3259730800, 3345764771, -- a2bfe8a1 a81a664b c24b8b70 c76c51a3
    3516065817, 3600352804, 4094571909, 275423344, -- d192e819 d6990624 f40e3585 106aa070
    430227734, 506948616, 659060556, 883997877, -- 19a4c116 1e376c08 2748774c 34b0bcb5
    958139571, 1322822218, 1537002063, 1747873779, -- 391c0cb3 4ed8aa4a 5b9cca4f 682e6ff3
    1955562222, 2024104815, 2227730452, 2361852424, -- 748f82ee 78a5636f 84c87814 8cc70208
    2428436474, 2756734187, 3204031479, 3329325298 ] -- 90befffa a4506ceb bef9a3f7 c67178f2

/-- The eight working words of SHA-256. -/
structure Sha256State where
  a : Nat
  b : Nat
  c : Nat
  d : Nat
  e : Nat
  f : Nat
  g : Nat
  h : Nat
deriving DecidableEq, Repr

/-- The initial hash value of SHA-256. -/
def sha256Init : Sha256State :=
  { a := 0x6a09e667, b := 0xbb67ae85, c := 0x3c6ef372, d := 0xa54ff53a,
    e := 0x510e527f, f := 0x9b05688c, g := 0x1f83d9ab, h := 0x5be0cd19 }

/-- The message schedule: `n` more words after those of `w`. -/
def sha256Schedule : Nat → List Nat → List Nat
  | 0, w => w
  | n + 1, w =>
    let t := w.length
    let w2 := w.getD (t - 2) 0
    let w15 := w.getD (t - 15) 0
    let s0 := rotr32 w15 7 ^^^ rotr32 w15 18 ^^^ (w15 >>> 3)
    let s1 := rotr32 w2 17 ^^^ rotr32 w2 19 ^^^ (w2 >>> 10)
    sha256Schedule n (w ++ [(s1 + w.getD (t - 7) 0 + s0 + w.getD (t - 16) 0) % 2 ^ 32])

/-- One round of SHA-256 with round constant `k` and schedule word `w`. -/
def sha256Round (s : Sha256State) (k w : Nat) : Sha256State :=
  let S1 := rotr32 s.e 6 ^^^ rotr32 s.e 11 ^^^ rotr32 s.e 25
  let ch := (s.e &&& s.f) ^^^ (not32 s.e &&& s.g)
  let t1 := (s.h + S1 + ch + k + w) % 2 ^ 32
  let S0 := rotr32 s.a 2 ^^^ rotr32 s.a 13 ^^^ rotr32 s.a 22
  let maj := (s.a &&& s.b) ^^^ (s.a &&& s.c) ^^^ (s.b &&& s.c)
  let t2 := (S0 + maj) % 2 ^ 32
  { a := (t1 + t2) % 2 ^ 32, b := s.a, c := s.b, d := s.c,
    e := (s.d + t1) % 2 ^ 32, f := s.e, g := s.f, h := s.g }

/-- The compression of one 64-byte block into the hash value. -/
def sha256Block (hash : Sha256State) (block : List UInt8) : Sha256State :=
  let w := sha256Schedule 48 (bigEndianWords block)
  let s := (sha256K.zip w).foldl (fun s kw => sha256Round s kw.1 kw.2) hash
  { a := (hash.a + s.a) % 2 ^ 32, b := (hash.b + s.b) % 2 ^ 32,
    c := (hash.c + s.c) % 2 ^ 32, d := (hash.d + s.d) % 2 ^ 32,
    e := (hash.e + s.e) % 2 ^ 32, f := (hash.f + s.f) % 2 ^ 32,
    g := (hash.g + s.g) % 2 ^ 32, h := (hash.h + s.h) % 2 ^ 32 }

/-- The compression of `n` blocks in turn. -/
def sha256Blocks : Nat → Sha256State → List UInt8 → Sha256State
  | 0, hash, _ => hash
  | n + 1, hash, data => sha256Blocks n (sha256Block hash (data.take 64)) (data.drop 64)

/-- What `h := sha256.New(); h.Write(content); h.Sum(nil)` returns. -/
def sha256Sum (content : List UInt8) : List UInt8 :=
  let bits := (content.length * 8) % 2 ^ 64
  let padded := content ++ padding content.length ++
    bigEndian32 (bits / 2 ^ 32) ++ bigEndian32 bits
  let s := sha256Blocks (padded.length / 64) sha256Init padded
  [s.a, s.b, s.c, s.d, s.e, s.f, s.g, s.h].flatMap bigEndian32

/-- The sines table of MD5. -/
def md5K : List Nat :=
  [ 0xd76aa478, 0xe8c7b756, 0x242070db, 0xc1bdceee, 0xf57c0faf, 0x4787c62a,
    0xa8304613, 0xfd469501, 0x698098d8, 0x8b44f7af, 0xffff5bb1, 0x895cd7be,
    0x6b901122, 0xfd987193, 0xa679438e, 0x49b40821, 0xf61e2562, 0xc040b340,
    0x265e5a51, 0xe9b6c7aa, 0xd62f105d, 0x02441453, 0xd8a1e681, 0xe7d3fbc8,
    0x21e1cde6, 0xc33707d6, 0xf4d50d87, 0x455a14ed, 0xa9e3e905, 0xfcefa3f8,
    0x676f02d9, 0x8d2a4c8a, 0xfffa3942, 0x8771f681, 0x6d9d6122, 0xfde5380c,
    0xa4beea44, 0x4bdecfa9, 0xf6bb4b60, 0xbebfbc70, 0x289b7ec6, 0xeaa127fa,
    0xd4ef3085, 0x04881d05, 0xd9d4d039, 0xe6db99e5, 0x1fa27cf8, 0xc4ac5665,
    0xf4292244, 0x432aff97, 0xab9423a7, 0xfc93a039, 0x655b59c3, 0x8f0ccc92,
    0xffeff47d, 0x85845dd1, 0x6fa87e4f, 0xfe2ce6e0, 0xa3014314, 0x4e0811a1,
    0xf7537e82, 0xbd3af235, 0x2ad7d2bb, 0xeb86d391 ]

/-- The rotation amounts of the 64 steps of MD5. -/
def md5Shifts : List Nat :=
  [ 7, 12, 17, 22, 7, 12, 17, 22, 7, 12, 17, 22, 7, 12, 17, 22,
    5, 9, 14, 20, 5, 9, 14, 20, 5, 9, 14, 20, 5, 9, 14, 20,
    4, 11, 16, 23, 4, 11, 16, 23, 4, 11, 16, 23, 4, 11, 16, 23,
    6, 10, 15, 21, 6, 10, 15, 21, 6, 10, 15, 21, 6, 10, 15, 21 ]

/-- The four working words of MD5. -/
structure Md5State where
  a : Nat
  b : Nat
  c : Nat
  d : Nat
deriving DecidableEq, Repr

/-- The initial value of MD5. -/
def md5Init : Md5State :=
  { a := 0x67452301, b := 0xefcdab89, c := 0x98badcfe, d := 0x10325476 }

/-- Step `i` of MD5 on the block with words `m`. -/
def md5Step (m : List Nat) (s : Md5State) (i : Nat) : Md5State :=
  let fg : Nat × Nat :=
    if i < 16 then ((s.b &&& s.c) ||| (not32 s.b &&& s.d), i)
    else if i < 32 then ((s.d &&& s.b) ||| (not32 s.d &&& s.c), (5 * i + 1) % 16)
    else if i < 48 then (s.b ^^^ s.c ^^^ s.d, (3 * i + 5) % 16)
    else (s.c ^^^ (s.b ||| not32 s.d), (7 * i) % 16)
  let sum := (fg.1 + s.a + md5K.getD i 0 + m.getD fg.2 0) % 2 ^ 32
  { a := s.d, d := s.c, c := s.b, b := (s.b + rotl32 sum (md5Shifts.getD i 0)) % 2 ^ 32 }

/-- The compression of one 64-byte block into the MD5 value. -/
def md5Block (hash : Md5State) (block : List UInt8) : Md5State :=
  let m := littleEndianWords block
  let s := (List.range 64).foldl (md5Step m) hash
  { a := (hash.a + s.a) % 2 ^ 32, b := (hash.b + s.b) % 2 ^ 32,
    c := (hash.c + s.c) % 2 ^ 32, d := (hash.d + s.d) % 2 ^ 32 }

/-- The compression of `n` blocks in turn. -/
def md5Blocks : Nat → Md5State → List UInt8 → Md5State
  | 0, hash, _ => hash
  | n + 1, hash, data => md5Blocks n (md5Block hash (data.take 64)) (data.drop 64)

/-- What `h := md5.New(); h.Write(content); h.Sum(nil)` returns. -/
def md5Sum (content : List UInt8) : List UInt8 :=
  let bits := (content.length * 8) % 2 ^ 64
  let padded := content ++ padding content.length ++
    littleEndian32 bits ++ littleEndian32 (bits / 2 ^ 32)
  let s := md5Blocks (padded.length / 64) md5Init padded
  [s.a, s.b, s.c, s.d].flatMap littleEndian32

/-! ## Hex and base64 -/

/-- The digits `fmt` uses for the verb `%x`. -/
def lowerhex (n : Nat) : Char :=
  "0123456789abcdef".data.getD n '0'

/-- Go `fmt.Sprintf("%x", bytes)`: two lowercase hex digits per byte. -/
def sprintfHex (bytes : List UInt8) : String :=
  String.mk (bytes.flatMap (fun b => [lowerhex (b.toNat / 16), lowerhex (b.toNat % 16)]))

/-- The alphabet of `base64.StdEncoding`. -/
def base64Alphabet : List Char :=
  "ABCDEFGHIJKLMNOPQRSTUVWXYZabcdefghijklmnopqrstuvwxyz0123456789+/".data

/-- The character standing for a 6-bit value. -/
def base64Char (n : Nat) : Char :=
  base64Alphabet.getD n 'A'

/-- The characters `base64.StdEncoding` writes for a byte sequence, padded with `=`. -/
def base64Chars : List UInt8 → List Char
  | [] => []
  | [b0] =>
    [base64Char (b0.toNat / 4), base64Char (b0.toNat % 4 * 16), '=', '=']
  | [b0, b1] =>
    [base64Char (b0.toNat / 4), base64Char (b0.toNat % 4 * 16 + b1.toNat / 16),
      base64Char (b1.toNat % 16 * 4), '=']
  | b0 :: b1 :: b2 :: rest =>
    base64Char (b0.toNat / 4) :: base64Char (b0.toNat % 4 * 16 + b1.toNat / 16) ::
      base64Char (b1.toNat % 16 * 4 + b2.toNat / 64) :: base64Char (b2.toNat % 64) ::
      base64Chars rest

/-- Go `base64.StdEncoding.EncodeToString`. -/
def EncodeToString (bytes : List UInt8) : String :=
  String.mk (base64Chars bytes)

/-- The 6-bit value a character of the standard base64 alphabet (RFC 4648) stands for. -/
def base64Value (c : Char) : Option Nat :=
  let n := c.toNat
  if 65 ≤ n ∧ n ≤ 90 then some (n - 65)
  else if 97 ≤ n ∧ n ≤ 122 then some (n - 71)
  else if 48 ≤ n ∧ n ≤ 57 then some (n + 4)
  else if n = 43 then some 62
  else if n = 47 then some 63
  else none

/-- Standard base64 decoding (RFC 4648) of a padded text: groups of four characters, the last
group alone ending in one or two `=`; `none` when the text is not valid base64. -/
def base64Decode : List Char → Option (List UInt8)
  | [] => some []
  | c0 :: c1 :: c2 :: c3 :: rest =>
    if rest = [] ∧ c3 = '=' then
      if c2 = '=' then
        match base64Value c0, base64Value c1 with
        | some v0, some v1 => some [UInt8.ofNat (v0 * 4 + v1 / 16)]
        | _, _ => none
      else
        match base64Value c0, base64Value c1, base64Value c2 with
        | some v0, some v1, some v2 =>
          some [UInt8.ofNat (v0 * 4 + v1 / 16), UInt8.ofNat (v1 % 16 * 16 + v2 / 4)]
        | _, _, _ => none
    else
      match base64Value c0, base64Value c1, base64Value c2, base64Value c3,
        base64Decode rest with
      | some v0, some v1, some v2, some v3, some tail =>
        some (UInt8.ofNat (v0 * 4 + v1 / 16) :: UInt8.ofNat (v1 % 16 * 16 + v2 / 4) ::
          UInt8.ofNat (v2 % 4 * 64 + v3) :: tail)
      | _, _, _, _, _ => none
  | _ => none

/-! ## `hashSHA256` and `hashMD5` -/

/-- The function `hashSHA256` of `common.go`. -/
def hashSHA256 (content : List UInt8) : String :=
  sprintfHex (sha256Sum content)

/-- The function `hashMD5` of `common.go`. -/
def hashMD5 (content : List UInt8) : String :=
  EncodeToString (md5Sum content)

/-! ## Sample surroundings -/

/-- A machine away from EC2: the access key and the secret key stand in its environment, the
security token is unset, and nothing answers at the metadata address. -/
def workstation : Host :=
  { envAccessKeyID := "AWS_ACCESS_KEY_ID"
    envSecretAccessKey := "AWS_SECRET_ACCESS_KEY"
    envSecurityToken := "AWS_SECURITY_TOKEN"
    getenv := fun name =>
      if name = "AWS_ACCESS_KEY_ID" then "AKIA..."
      else if name = "AWS_SECRET_ACCESS_KEY" then "secret"
      else ""
    expired := fun c =>
      match c.Expiration with
      | none => false
      | some t => decide (t < 1000)
    dial := fun _ => false
    newRequest := fun _ => true
    send := fun _ _ => none
    eofWithData := true
    unmarshal := fun _ c => (c, false) }

/-- An EC2 instance with an empty environment: the metadata service lists two roles and
serves credentials for the first. -/
def instanceWithRole : Host :=
  { envAccessKeyID := "AWS_ACCESS_KEY_ID"
    envSecretAccessKey := "AWS_SECRET_ACCESS_KEY"
    envSecurityToken := "AWS_SECURITY_TOKEN"
    getenv := fun _ => ""
    expired := fun c =>
      match c.Expiration with
      | none => false
      | some t => decide (t < 1000)
    dial := fun _ => true
    newRequest := fun _ => true
    send := fun _ url =>
      if url = securityCredentialsURL then some "role-a\nrole-b"
      else if url = securityCredentialsURL ++ "role-a" then some "credentials of role-a"
      else none
    eofWithData := true
    unmarshal := fun body c =>
      if body = "credentials of role-a" then
        ({ AccessKeyID := "ASIA...", SecretAccessKey := "served", SecurityToken := "token",
           Expiration := some 5000 }, true)
      else (c, false) }

/-- A role list whose second line is 70000 bytes long. -/
def longLineBody : String :=
  String.mk ('o' :: 'k' :: '\n' :: List.replicate 70000 'a')

/-- An EC2 instance whose metadata service answers the role-list request with
`longLineBody`. -/
def instanceWithLongLine : Host :=
  { instanceWithRole with
    send := fun _ url => if url = securityCredentialsURL then some longLineBody else none }

/-- An EC2 instance whose metadata service answers the credentials request with a body that
the decoder gives up on after filling in the access key. -/
def instanceWithBrokenBody : Host :=
  { instanceWithRole with
    send := fun _ url =>
      if url = securityCredentialsURL then some "role-a\nrole-b"
      else if url = securityCredentialsURL ++ "role-a" then some "cut short"
      else none
    unmarshal := fun _ c => ({ c with AccessKeyID := "ASIA..." }, false) }

/-! ## Facts about splitting -/

theorem splitChars_shape (sep : Char) (cs : List Char) :
    ∃ rest, splitChars sep cs = cs.takeWhile (fun c => c ≠ sep) :: rest ∧
      rest.length = cs.count sep := by
  induction cs with
  | nil => exact ⟨[], rfl, rfl⟩
  | cons c cs ih =>
    obtain ⟨rest, h, hl⟩ := ih
    by_cases hc : c = sep
    · subst hc
      refine ⟨splitChars c cs, ?_, ?_⟩
      · simp [splitChars]
      · simp [h, hl]
    · refine ⟨rest, ?_, ?_⟩
      · simp [splitChars, hc, h]
      · simp [hl, List.count_cons, hc]

theorem Split_shape (host : String) :
    ∃ rest, Split host '.' = firstLabel host :: rest ∧ rest.length + 1 = labelCount host := by
  obtain ⟨rest, h, hl⟩ := splitChars_shape '.' host.data
  exact ⟨rest.map String.mk, by simp [Split, h, firstLabel], by simp [labelCount, hl]⟩

theorem HasPrefix_length (s pre : String) (h : HasPrefix s pre = true) :
    pre.data.length ≤ s.data.length := by
  have := List.isPrefixOf_iff_prefix.mp h
  exact this.length_le

theorem slices_of_s3_prefix (p : String) (h : HasPrefix p "s3-" = true) :
    sliceTo p 2 = some "s3" ∧ sliceFrom p 3 = some (String.mk (p.data.drop 3)) := by
  have hlen := HasPrefix_length p "s3-" h
  obtain ⟨t, ht⟩ := List.isPrefixOf_iff_prefix.mp h
  have hlen3 : 3 ≤ p.data.length := hlen
  refine ⟨?_, ?_⟩
  · have h2 : p.data.take 2 = ['s', '3'] := by rw [← ht]; rfl
    have hle : 2 ≤ p.data.length := by omega
    rw [sliceTo, if_pos hle, h2]
  · rw [sliceFrom, if_pos hlen3]

theorem splitChars_ne_nil (sep : Char) (cs : List Char) : splitChars sep cs ≠ [] := by
  obtain ⟨rest, h, -⟩ := splitChars_shape sep cs
  simp [h]

theorem splitChars_not_mem (sep : Char) (cs : List Char) (h : sep ∉ cs) :
    splitChars sep cs = [cs] := by
  induction cs with
  | nil => rfl
  | cons c cs ih =>
    have hc : c ≠ sep := fun e => h (by simp [e])
    have hcs : sep ∉ cs := fun e => h (by simp [e])
    simp [splitChars, hc, ih hcs]

theorem splitChars_mem (sep : Char) (cs : List Char) (h : sep ∈ cs) :
    splitChars sep cs = cs.takeWhile (fun c => c ≠ sep) ::
      splitChars sep ((cs.dropWhile (fun c => c ≠ sep)).drop 1) := by
  induction cs with
  | nil => simp at h
  | cons c cs ih =>
    by_cases hc : c = sep
    · subst hc
      simp [splitChars]
    · have hcs : sep ∈ cs := by
        rcases List.mem_cons.mp h with e | e
        · exact absurd e.symm hc
        · exact e
      simp [splitChars, hc, ih hcs]

theorem dropWhile_drop_length (sep : Char) (cs : List Char) :
    ((cs.dropWhile (fun c => c ≠ sep)).drop 1).length ≤ cs.length - 1 := by
  induction cs with
  | nil => simp
  | cons c cs ih =>
    by_cases hc : c = sep
    · simp [hc]
    · simp [hc]
      simp at ih
      omega

theorem trimLast_cons (x : List Char) (xs : List (List Char)) (hne : xs ≠ []) :
    (if (x :: xs).getLast? = some [] then (x :: xs).dropLast else x :: xs) =
      x :: (if xs.getLast? = some [] then xs.dropLast else xs) := by
  cases xs with
  | nil => exact absurd rfl hne
  | cons y ys =>
    have h1 : (x :: y :: ys).getLast? = (y :: ys).getLast? := by
      simp [List.getLast?_cons_cons]
    rw [h1]
    split <;> simp

theorem textLines_nil : textLines (String.mk []) = [] := by
  simp [textLines, splitChars]

theorem textLines_mem (data : List Char) (hn : '\n' ∈ data) :
    textLines (String.mk data) =
      String.mk (dropCR (data.takeWhile (fun c => c ≠ '\n'))) ::
        textLines (String.mk ((data.dropWhile (fun c => c ≠ '\n')).drop 1)) := by
  have hne := splitChars_ne_nil '\n' ((data.dropWhile (fun c => c ≠ '\n')).drop 1)
  simp only [textLines, splitChars_mem '\n' data hn]
  rw [trimLast_cons _ _ hne]
  rfl

theorem textLines_not_mem (data : List Char) (hd : data ≠ []) (hn : '\n' ∉ data) :
    textLines (String.mk data) = [String.mk (dropCR data)] := by
  simp only [textLines, splitChars_not_mem '\n' data hn]
  have : [data].getLast? ≠ some [] := by
    simp only [List.getLast?_singleton, ne_eq, Option.some.injEq]
    exact hd
  rw [if_neg this]
  rfl

/-- The scanning loop returns the lines of the text whenever the fuel exceeds its length and
every line fits the buffer. -/
theorem scanLoop_eq_lines (fuel : Nat) (e : Bool) (data : List Char) (hf : data.length < fuel)
    (hfit : ∀ piece ∈ splitChars '\n' data, byteLen piece < MaxScanTokenSize) :
    scanLoop fuel e data = textLines (String.mk data) := by
  induction fuel generalizing data with
  | zero => omega
  | succ fuel ih =>
    by_cases hd : data = []
    · subst hd
      rw [textLines_nil]
      simp [scanLoop, ScanLines]
    · by_cases hn : '\n' ∈ data
      · have hlen := dropWhile_drop_length '\n' data
        have hpos : 0 < data.length := List.length_pos.mpr hd
        rw [splitChars_mem '\n' data hn] at hfit
        have hfirst := hfit _ (List.mem_cons_self _ _)
        have hrec := ih ((data.dropWhile (fun c => c ≠ '\n')).drop 1) (by omega)
          (fun piece hp => hfit piece (List.mem_cons_of_mem _ hp))
        have hfits : fitsBuffer e data = true := by
          simp only [fitsBuffer, hn, if_true, decide_eq_true_eq]
          omega
        rw [textLines_mem data hn, ← hrec]
        simp only [scanLoop, hfits, ScanLines, hd, hn, if_true, if_false]
      · rw [splitChars_not_mem '\n' data hn] at hfit
        have hall := hfit data (List.mem_singleton_self _)
        have hfits : fitsBuffer e data = true := by
          simp only [fitsBuffer, hn, if_false, Bool.or_eq_true, decide_eq_true_eq]
          exact Or.inl hall
        rw [textLines_not_mem data hd hn]
        cases fuel with
        | zero => simp at hf; exact absurd hf hd
        | succ fuel => simp [scanLoop, hfits, ScanLines, hd, hn]

theorem byteLen_replicate (n : Nat) : byteLen (List.replicate n 'a') = n := by
  induction n with
  | zero => rfl
  | succ n ih =>
    have hstep : byteLen (List.replicate (n + 1) 'a') = byteLen (List.replicate n 'a') + 1 := by
      simp only [byteLen, List.replicate_succ, List.flatMap_cons, List.length_append]
      have : (String.utf8EncodeChar 'a').length = 1 := by decide
      omega
    rw [hstep, ih]

/-- On a first line "ok" and a second line of `n` letters, more than the buffer holds, the
scanning loop returns the first line and stops. -/
theorem scanLoop_long_line (fuel n : Nat) (e : Bool) (hn : MaxScanTokenSize < n) :
    scanLoop (fuel + 2) e ('o' :: 'k' :: '\n' :: List.replicate n 'a') = ["ok"] := by
  have hnot : '\n' ∉ List.replicate n 'a' := by
    intro h
    exact absurd (List.eq_of_mem_replicate h) (by decide)
  have hfirst : fitsBuffer e ('o' :: 'k' :: '\n' :: List.replicate n 'a') = true := by
    have h2 : byteLen ['o', 'k'] = 2 := by decide
    have hm : '\n' ∈ 'o' :: 'k' :: '\n' :: List.replicate n 'a' := by simp
    have ht : List.takeWhile (fun c => decide (c ≠ '\n'))
        ('o' :: 'k' :: '\n' :: List.replicate n 'a') = ['o', 'k'] := by
      simp [List.takeWhile]
    simp only [fitsBuffer, hm, if_true, ht, h2, decide_eq_true_eq, MaxScanTokenSize]
    omega
  have hsecond : fitsBuffer e (List.replicate n 'a') = false := by
    simp only [fitsBuffer, hnot, if_false, byteLen_replicate, Bool.or_eq_false_iff,
      Bool.and_eq_false_imp, decide_eq_false_iff_not, decide_eq_true_eq]
    exact ⟨by omega, fun h => absurd h (by omega)⟩
  have hscan : ScanLines ('o' :: 'k' :: '\n' :: List.replicate n 'a') =
      some (['o', 'k'], List.replicate n 'a') := by
    simp [ScanLines, List.takeWhile, List.dropWhile, dropCR]
  rw [scanLoop, hfirst, if_pos rfl, hscan]
  simp only [scanLoop, hsecond, Bool.false_eq_true, if_false]

theorem long_line_length (n : Nat) :
    (String.mk ('o' :: 'k' :: '\n' :: List.replicate n 'a')).length + 1 = n + 2 + 2 := by
  simp [String.length]

theorem textLines_long_line (n : Nat) (hn : 0 < n) :
    (textLines (String.mk ('o' :: 'k' :: '\n' :: List.replicate n 'a'))).length = 2 := by
  have hnot : '\n' ∉ List.replicate n 'a' := by
    intro h
    exact absurd (List.eq_of_mem_replicate h) (by decide)
  have hm : '\n' ∈ 'o' :: 'k' :: '\n' :: List.replicate n 'a' := by simp
  have hd : List.drop 1 (List.dropWhile (fun c => decide (c ≠ '\n'))
      ('o' :: 'k' :: '\n' :: List.replicate n 'a')) = List.replicate n 'a' := by
    simp [List.dropWhile]
  have hne : List.replicate n 'a' ≠ [] := by
    intro h
    have := congrArg List.length h
    simp at this
    omega
  rw [textLines_mem _ hm, hd, textLines_not_mem _ hne hnot]
  rfl

/-! ## Facts about `onEC2` and the metadata client -/

theorem onEC2_checked (h : Host) (p : Process) (l : location)
    (hl : p.loc = some l) (hc : l.checked = true) : onEC2 h p = (l.ec2, p) := by
  cases p with
  | mk K lo d r =>
    simp only at hl
    subst hl
    simp [onEC2, hc]

theorem onEC2_unchecked (h : Host) (p : Process)
    (hu : p.loc = none ∨ ∃ l, p.loc = some l ∧ l.checked = false) :
    onEC2 h p = (h.dial p.dials,
      { p with loc := some { ec2 := h.dial p.dials, checked := true }, dials := p.dials + 1 }) := by
  rcases hu with hn | ⟨l, hl, hc⟩
  · cases hd : h.dial p.dials <;> simp [onEC2, hn, hd]
  · cases hd : h.dial p.dials <;> simp [onEC2, hl, hc, hd]

theorem loc_cases (p : Process) :
    (p.loc = none ∨ ∃ l, p.loc = some l ∧ l.checked = false) ∨
      ∃ l, p.loc = some l ∧ l.checked = true := by
  cases hl : p.loc with
  | none => exact Or.inl (Or.inl rfl)
  | some l =>
    cases hc : l.checked
    · exact Or.inl (Or.inr ⟨l, rfl, hc⟩)
    · exact Or.inr ⟨l, rfl, hc⟩

theorem onEC2_loc (h : Host) (p : Process) :
    (onEC2 h p).2.loc = some { ec2 := (onEC2 h p).1, checked := true } := by
  rcases loc_cases p with hu | ⟨l, hl, hc⟩
  · rw [onEC2_unchecked h p hu]
  · rw [onEC2_checked h p l hl hc]
    simp only [hl]
    cases l
    simp_all

theorem onEC2_frame (h : Host) (p : Process) :
    (onEC2 h p).2.Keys = p.Keys ∧ (onEC2 h p).2.requests = p.requests := by
  rcases loc_cases p with hu | ⟨l, hl, hc⟩
  · rw [onEC2_unchecked h p hu]
    exact ⟨rfl, rfl⟩
  · rw [onEC2_checked h p l hl hc]
    exact ⟨rfl, rfl⟩

theorem onEC2_again (h h' : Host) (p : Process) :
    onEC2 h' (onEC2 h p).2 = ((onEC2 h p).1, (onEC2 h p).2) :=
  onEC2_checked h' _ _ (onEC2_loc h p) rfl

theorem onEC2Calls_checked (hs : List Host) (p : Process) (l : location)
    (hl : p.loc = some l) (hc : l.checked = true) :
    onEC2Calls hs p = (List.replicate hs.length l.ec2, p) := by
  induction hs with
  | nil => rfl
  | cons h hs ih => simp [onEC2Calls, onEC2_checked h p l hl hc, ih, List.replicate_succ]

theorem getIAMRoleList_of_body (h : Host) (p : Process) (body : String)
    (hn : h.newRequest securityCredentialsURL = true)
    (hs : h.send p.requests.length securityCredentialsURL = some body) :
    (getIAMRoleList h p).1 = scanLoop (body.length + 1) h.eofWithData body.data := by
  simp [getIAMRoleList, hn, hs]

theorem getIAMRoleList_frame (h : Host) (p : Process) :
    (getIAMRoleList h p).2.loc = p.loc ∧ (getIAMRoleList h p).2.Keys = p.Keys ∧
    (getIAMRoleList h p).2.dials = p.dials ∧
    p.requests <+: (getIAMRoleList h p).2.requests := by
  cases hn : h.newRequest securityCredentialsURL
  · simp [getIAMRoleList, hn]
  · cases hs : h.send p.requests.length securityCredentialsURL <;> simp [getIAMRoleList, hn, hs]

theorem getIAMRoleCredentials_frame (h : Host) (p : Process) :
    (getIAMRoleCredentials h p).2.loc = p.loc ∧ (getIAMRoleCredentials h p).2.Keys = p.Keys ∧
    (getIAMRoleCredentials h p).2.dials = p.dials ∧
    p.requests <+: (getIAMRoleCredentials h p).2.requests := by
  obtain ⟨h1, h2, h3, h4⟩ := getIAMRoleList_frame h p
  cases hr : (getIAMRoleList h p).1 with
  | nil => simp only [getIAMRoleCredentials, hr]; exact ⟨h1, h2, h3, h4⟩
  | cons role rest =>
    cases hn : h.newRequest (securityCredentialsURL ++ role)
    · simp only [getIAMRoleCredentials, hr, hn]; exact ⟨h1, h2, h3, h4⟩
    · cases hs : h.send (getIAMRoleList h p).2.requests.length (securityCredentialsURL ++ role) with
      | none =>
        simp only [getIAMRoleCredentials, hr, hn, hs]
        exact ⟨h1, h2, h3, h4.trans (List.prefix_append _ _)⟩
      | some body =>
        cases hu : (h.unmarshal body {}).2 <;>
          simp only [getIAMRoleCredentials, hr, hn, hs, hu] <;>
          exact ⟨h1, h2, h3, h4.trans (List.prefix_append _ _)⟩

theorem onEC2_setKeys (h : Host) (p : Process) (k : Option Credentials) :
    onEC2 h { p with Keys := k } = ((onEC2 h p).1, { (onEC2 h p).2 with Keys := k }) := by
  rcases loc_cases p with hu | ⟨l, hl, hc⟩
  · rw [onEC2_unchecked h p hu, onEC2_unchecked h { p with Keys := k } hu]
  · rw [onEC2_checked h p l hl hc, onEC2_checked h { p with Keys := k } l hl hc]

theorem checkKeys_steps (h : Host) (p : Process) :
    checkKeys h p =
      refreshIf h (h.expired (heldKeys
          (refreshIf h (decide ((startingKeys h p).AccessKeyID = ""))
            { p with Keys := some (startingKeys h p) })))
        (refreshIf h (decide ((startingKeys h p).AccessKeyID = ""))
          { p with Keys := some (startingKeys h p) }) := by
  cases p with
  | mk K lo d r =>
    cases K with
    | none => simp only [checkKeys, refreshIf, startingKeys, heldKeys, decide_eq_true_eq]
    | some k => simp only [checkKeys, refreshIf, startingKeys, heldKeys, decide_eq_true_eq]

theorem refreshIf_off (h : Host) (cond : Bool) (p : Process) (hoff : (onEC2 h p).1 = false) :
    refreshIf h cond p = p ∨ refreshIf h cond p = (onEC2 h p).2 := by
  cases cond
  · exact Or.inl rfl
  · right
    simp only [refreshIf, hoff, if_true, Bool.false_eq_true, if_false]

theorem refreshIf_on (h : Host) (p : Process) (hon : (onEC2 h p).1 = true) :
    refreshIf h true p =
      { (getIAMRoleCredentials h (onEC2 h p).2).2 with
        Keys := some (getIAMRoleCredentials h (onEC2 h p).2).1 } ∧
    (onEC2 h (refreshIf h true p)).1 = true := by
  have heq : refreshIf h true p =
      { (getIAMRoleCredentials h (onEC2 h p).2).2 with
        Keys := some (getIAMRoleCredentials h (onEC2 h p).2).1 } := by
    simp only [refreshIf, hon, if_true]
  refine ⟨heq, ?_⟩
  obtain ⟨h1, -, -, -⟩ := getIAMRoleCredentials_frame h (onEC2 h p).2
  rw [heq, onEC2_setKeys, onEC2_checked h _ _ (h1.trans (onEC2_loc h p)) rfl]
  exact hon

/-! ## Facts about sorting strings -/

theorem char_eq_of_toNat_eq (c d : Char) (h : c.toNat = d.toNat) : c = d :=
  Char.ext (UInt32.toNat.inj h)

theorem lexLE_total (a b : List Char) : lexLE a b = true ∨ lexLE b a = true := by
  induction a generalizing b with
  | nil => exact Or.inl rfl
  | cons x xs ih =>
    cases b with
    | nil => exact Or.inr rfl
    | cons y ys =>
      rcases Nat.lt_trichotomy x.toNat y.toNat with hlt | heq | hgt
      · left; simp [lexLE, hlt]
      · rcases ih ys with h | h
        · left; simp [lexLE, heq, h]
        · right; simp [lexLE, heq, h]
      · right; simp [lexLE, hgt]

theorem lexLE_trans (a b c : List Char) (hab : lexLE a b = true) (hbc : lexLE b c = true) :
    lexLE a c = true := by
  induction a generalizing b c with
  | nil => rfl
  | cons x xs ih =>
    cases b with
    | nil => simp [lexLE] at hab
    | cons y ys =>
      cases c with
      | nil => simp [lexLE] at hbc
      | cons z zs =>
        simp only [lexLE] at hab hbc ⊢
        split at hab
        · split at hbc
          · rw [if_pos (by omega)]
          · split at hbc
            · rw [if_pos (by omega)]
            · simp at hbc
        · split at hab
          · split at hbc
            · rw [if_pos (by omega)]
            · split at hbc
              · rw [if_neg (by omega), if_pos (by omega)]
                exact ih ys zs hab hbc
              · simp at hbc
          · simp at hab

theorem lexLE_antisymm (a b : List Char) (hab : lexLE a b = true) (hba : lexLE b a = true) :
    a = b := by
  induction a generalizing b with
  | nil =>
    cases b with
    | nil => rfl
    | cons y ys => simp [lexLE] at hba
  | cons x xs ih =>
    cases b with
    | nil => simp [lexLE] at hab
    | cons y ys =>
      simp only [lexLE] at hab hba
      split at hab
      · split at hba
        · omega
        · split at hba
          · omega
          · simp at hba
      · split at hab
        · split at hba
          · omega
          · split at hba
            · rw [char_eq_of_toNat_eq x y (by omega), ih ys hab hba]
            · simp at hba
        · simp at hab

theorem sortStrings_sorted (keys : List String) : (sortStrings keys).Sorted StrLE := by
  haveI : IsTotal String StrLE := ⟨fun a b => lexLE_total a.data b.data⟩
  haveI : IsTrans String StrLE := ⟨fun a b c => lexLE_trans a.data b.data c.data⟩
  exact List.sorted_insertionSort _ _

theorem sortStrings_perm (l₁ l₂ : List String) (h : l₁.Perm l₂) :
    sortStrings l₁ = sortStrings l₂ := by
  haveI : IsAntisymm String StrLE :=
    ⟨fun a b hab hba => String.ext (lexLE_antisymm a.data b.data hab hba)⟩
  apply List.eq_of_perm_of_sorted (r := StrLE)
  · exact (List.perm_insertionSort _ _).trans (h.trans (List.perm_insertionSort _ _).symm)
  · exact sortStrings_sorted _
  · exact sortStrings_sorted _

/-! ## Facts about maps of values -/

theorem index_of_not_mem (v : Values) (k : String) (h : k ∉ v.map Prod.fst) :
    Values.index v k = [] := by
  induction v with
  | nil => rfl
  | cons e rest ih =>
    obtain ⟨k', vs⟩ := e
    simp only [List.map_cons, List.mem_cons, not_or] at h
    simp only [Values.index, if_neg (Ne.symm h.1)]
    exact ih h.2

theorem index_of_mem (v : Values) (k : String) (arr : List String)
    (hnd : (v.map Prod.fst).Nodup) (h : (k, arr) ∈ v) : Values.index v k = arr := by
  induction v with
  | nil => simp at h
  | cons e rest ih =>
    obtain ⟨k', vs⟩ := e
    simp only [List.map_cons, List.nodup_cons] at hnd
    rcases List.mem_cons.mp h with heq | hmem
    · simp only [Prod.mk.injEq] at heq
      simp [Values.index, heq.1, heq.2]
    · have hne : k' ≠ k := by
        intro e
        apply hnd.1
        rw [e]
        exact List.mem_map_of_mem Prod.fst hmem
      simp only [Values.index, if_neg hne]
      exact ih hnd.2 hmem

theorem index_filter_ne (v : Values) (key k : String) (h : key ≠ k) :
    Values.index (v.filter (fun e => e.1 ≠ key)) k = Values.index v k := by
  induction v with
  | nil => rfl
  | cons e rest ih =>
    obtain ⟨k', vs⟩ := e
    simp only [ne_eq, decide_not] at ih ⊢
    have h' : ¬ k = key := fun e => h e.symm
    by_cases hk : k' = key
    · subst hk
      simp [List.filter_cons, Values.index, h, ih]
    · by_cases hk' : k' = k
      · subst hk'
        simp [List.filter_cons, h', Values.index]
      · simp [List.filter_cons, hk, Values.index, hk', ih]

theorem index_Set (v : Values) (key x k : String) :
    Values.index (Values.Set v key x) k = if key = k then [x] else Values.index v k := by
  by_cases h : key = k
  · simp [Values.Set, Values.index, h]
  · simp only [Values.Set, Values.index, if_neg h]
    exact index_filter_ne v key k h

theorem mem_keys_iff (v : Values) (k : String) : k ∈ v.keys ↔ k ∈ v.map Prod.fst := by
  simp [Values.keys]

theorem mem_keys_Set (v : Values) (key x k : String) :
    k ∈ (Values.Set v key x).keys ↔ k = key ∨ k ∈ v.keys := by
  simp only [mem_keys_iff, Values.Set, List.map_cons, List.mem_cons, List.mem_map,
    List.mem_filter]
  constructor
  · rintro (h | ⟨e, ⟨he, -⟩, rfl⟩)
    · exact Or.inl h
    · exact Or.inr ⟨e, he, rfl⟩
  · rintro (h | ⟨e, he, rfl⟩)
    · exact Or.inl h
    · by_cases hk : e.1 = key
      · exact Or.inl hk
      · exact Or.inr ⟨e, ⟨he, by simpa using hk⟩, rfl⟩

theorem index_setEach (v : Values) (key : String) (arr : List String) (k : String) :
    Values.index (setEach v key arr) k =
      if key = k then
        (match arr.getLast? with
          | some x => [x]
          | none => Values.index v k)
      else Values.index v k := by
  induction arr generalizing v with
  | nil => simp [setEach]
  | cons a arr ih =>
    have hstep : setEach v key (a :: arr) = setEach (Values.Set v key a) key arr := rfl
    rw [hstep, ih, index_Set]
    by_cases h : key = k
    · simp only [h, if_true]
      cases arr with
      | nil => simp
      | cons b bs =>
        rw [List.getLast?_cons_cons]
        cases hl : (b :: bs).getLast? with
        | none => simp at hl
        | some x => rfl
    · simp [h]

theorem mem_keys_setEach (v : Values) (key : String) (arr : List String) (k : String) :
    k ∈ (setEach v key arr).keys ↔ (arr ≠ [] ∧ k = key) ∨ k ∈ v.keys := by
  induction arr generalizing v with
  | nil => simp [setEach]
  | cons a arr ih =>
    have hstep : setEach v key (a :: arr) = setEach (Values.Set v key a) key arr := rfl
    rw [hstep, ih, mem_keys_Set]
    simp only [ne_eq, reduceCtorEq, not_false_eq_true, true_and]
    tauto

theorem augmentRequestQuery_eq (visit values : Values) :
    augmentRequestQuery visit values = (Values.Encode (setAll visit values), setAll visit values) :=
  rfl

theorem index_setAll (visit v : Values) (k : String) (hnd : (visit.map Prod.fst).Nodup) :
    Values.index (setAll visit v) k =
      match (Values.index visit k).getLast? with
      | some x => [x]
      | none => Values.index v k := by
  induction visit generalizing v with
  | nil => simp [setAll, Values.index]
  | cons e rest ih =>
    obtain ⟨key, arr⟩ := e
    simp only [List.map_cons, List.nodup_cons] at hnd
    have hstep : setAll ((key, arr) :: rest) v = setAll rest (setEach v key arr) := rfl
    rw [hstep, ih _ hnd.2, index_setEach]
    by_cases h : key = k
    · subst h
      simp [Values.index, index_of_not_mem rest key hnd.1]
    · simp [Values.index, h]

theorem mem_keys_setAll (visit v : Values) (k : String) :
    k ∈ (setAll visit v).keys ↔ (∃ arr, (k, arr) ∈ visit ∧ arr ≠ []) ∨ k ∈ v.keys := by
  induction visit generalizing v with
  | nil => simp [setAll]
  | cons e rest ih =>
    obtain ⟨key, arr⟩ := e
    have hstep : setAll ((key, arr) :: rest) v = setAll rest (setEach v key arr) := rfl
    rw [hstep, ih, mem_keys_setEach]
    constructor
    · rintro (⟨a, ha, hne⟩ | ⟨hne, rfl⟩ | h)
      · exact Or.inl ⟨a, List.mem_cons_of_mem _ ha, hne⟩
      · exact Or.inl ⟨arr, List.mem_cons_self _ _, hne⟩
      · exact Or.inr h
    · rintro (⟨a, ha, hne⟩ | h)
      · rcases List.mem_cons.mp ha with heq | hmem
        · simp only [Prod.mk.injEq] at heq
          exact Or.inr (Or.inl ⟨by rw [← heq.2]; exact hne, heq.1⟩)
        · exact Or.inl ⟨a, hmem, hne⟩
      · exact Or.inr (Or.inr h)

theorem index_Add (m : Values) (key x k : String) :
    Values.index (Values.Add m key x) k =
      if key = k then Values.index m k ++ [x] else Values.index m k := by
  induction m with
  | nil => by_cases h : key = k <;> simp [Values.Add, Values.index, h]
  | cons e rest ih =>
    obtain ⟨k', vs⟩ := e
    by_cases hk : k' = key
    · subst hk
      by_cases h : k' = k <;> simp [Values.Add, Values.index, h]
    · by_cases hk' : k' = k
      · subst hk'
        simp [Values.Add, Values.index, hk, Ne.symm hk]
      · simp [Values.Add, Values.index, hk, hk', ih]

theorem keys_Add (m : Values) (key x : String) :
    (Values.Add m key x).map Prod.fst =
      if key ∈ m.map Prod.fst then m.map Prod.fst else m.map Prod.fst ++ [key] := by
  induction m with
  | nil => simp [Values.Add]
  | cons e rest ih =>
    obtain ⟨k', vs⟩ := e
    by_cases hk : k' = key
    · subst hk
      simp [Values.Add]
    · have hk2 : ¬ key = k' := fun e => hk e.symm
      simp only [Values.Add, if_neg hk, List.map_cons, ih, List.mem_cons, hk2, false_or]
      split <;> simp

theorem nonempty_Add (m : Values) (key x : String) (h : ∀ e ∈ m, e.2 ≠ []) :
    ∀ e ∈ Values.Add m key x, e.2 ≠ [] := by
  induction m with
  | nil => simp [Values.Add]
  | cons e rest ih =>
    obtain ⟨k', vs⟩ := e
    have hrest : ∀ e ∈ rest, e.2 ≠ [] := fun e he => h e (List.mem_cons_of_mem _ he)
    by_cases hk : k' = key
    · simp only [Values.Add, if_pos hk]
      intro e he
      rcases List.mem_cons.mp he with rfl | he
      · simp
      · exact hrest e he
    · simp only [Values.Add, if_neg hk]
      intro e he
      rcases List.mem_cons.mp he with rfl | he
      · exact h _ (List.mem_cons_self _ _)
      · exact ih hrest e he

theorem foldl_Add_facts (pairs : List (String × String)) (m : Values)
    (hnd : (m.map Prod.fst).Nodup) (hne : ∀ e ∈ m, e.2 ≠ []) :
    ((pairs.foldl (fun m kv => Values.Add m kv.1 kv.2) m).map Prod.fst).Nodup ∧
    (∀ e ∈ pairs.foldl (fun m kv => Values.Add m kv.1 kv.2) m, e.2 ≠ []) ∧
    (∀ k, Values.index (pairs.foldl (fun m kv => Values.Add m kv.1 kv.2) m) k =
      Values.index m k ++ (pairs.filter (fun kv => kv.1 = k)).map Prod.snd) := by
  induction pairs generalizing m with
  | nil => exact ⟨hnd, hne, fun k => by simp⟩
  | cons kv rest ih =>
    have hnd' : ((Values.Add m kv.1 kv.2).map Prod.fst).Nodup := by
      rw [keys_Add]
      split
      · exact hnd
      · rename_i hmem
        exact List.Nodup.append hnd (List.nodup_singleton _) (by simpa using hmem)
    obtain ⟨h1, h2, h3⟩ := ih (Values.Add m kv.1 kv.2) hnd' (nonempty_Add m kv.1 kv.2 hne)
    refine ⟨h1, h2, fun k => ?_⟩
    rw [List.foldl_cons, h3 k, index_Add]
    by_cases hk : kv.1 = k <;> simp [List.filter_cons, hk]

theorem Query_facts (pairs : List (String × String)) :
    ((Query pairs).map Prod.fst).Nodup ∧
    (∀ e ∈ Query pairs, e.2 ≠ []) ∧
    (∀ k, Values.index (Query pairs) k = (pairs.filter (fun kv => kv.1 = k)).map Prod.snd) := by
  obtain ⟨h1, h2, h3⟩ := foldl_Add_facts pairs [] (by simp) (by simp)
  exact ⟨h1, h2, fun k => by rw [Query, h3 k]; simp [Values.index]⟩

theorem index_perm (v w : Values) (k : String) (hp : v.Perm w)
    (hnd : (w.map Prod.fst).Nodup) : Values.index v k = Values.index w k := by
  have hndv : (v.map Prod.fst).Nodup := (hp.map Prod.fst).nodup_iff.mpr hnd
  by_cases hk : k ∈ w.map Prod.fst
  · obtain ⟨e, he, rfl⟩ := List.mem_map.mp hk
    rw [index_of_mem w e.1 e.2 hnd he, index_of_mem v e.1 e.2 hndv (hp.mem_iff.mpr he)]
  · have hkv : k ∉ v.map Prod.fst := fun h => hk ((hp.map Prod.fst).mem_iff.mp h)
    rw [index_of_not_mem w k hk, index_of_not_mem v k hkv]

theorem mem_Query_keys (pairs : List (String × String)) (k : String) :
    (∃ arr, (k, arr) ∈ Query pairs ∧ arr ≠ []) ↔ k ∈ pairs.map Prod.fst := by
  obtain ⟨hnd, hne, hidx⟩ := Query_facts pairs
  constructor
  · rintro ⟨arr, hmem, harr⟩
    have h := index_of_mem _ k arr hnd hmem
    rw [hidx k] at h
    rw [← h] at harr
    simp only [ne_eq, List.map_eq_nil_iff, List.filter_eq_nil_iff, not_forall] at harr
    obtain ⟨kv, hkv, hk⟩ := harr
    simp only [decide_eq_true_eq, not_not] at hk
    exact List.mem_map.mpr ⟨kv, hkv, hk⟩
  · intro hk
    by_cases hq : k ∈ (Query pairs).map Prod.fst
    · obtain ⟨e, he, rfl⟩ := List.mem_map.mp hq
      exact ⟨e.2, he, hne e he⟩
    · have h := index_of_not_mem _ k hq
      rw [hidx k] at h
      obtain ⟨kv, hkv, rfl⟩ := List.mem_map.mp hk
      simp only [List.map_eq_nil_iff, List.filter_eq_nil_iff] at h
      exact absurd (h kv hkv) (by simp)

theorem last_value_of_distinct (pairs : List (String × String)) (k : String)
    (other : List String) (hnd : (pairs.map Prod.fst).Nodup) :
    (match ((pairs.filter (fun kv => kv.1 = k)).map Prod.snd).getLast? with
      | some value => [value]
      | none => other) =
      if k ∈ pairs.map Prod.fst then (pairs.filter (fun kv => kv.1 = k)).map Prod.snd
      else other := by
  induction pairs with
  | nil => simp
  | cons kv rest ih =>
    simp only [List.map_cons, List.nodup_cons] at hnd
    by_cases hk : kv.1 = k
    · have hnone : rest.filter (fun kv => kv.1 = k) = [] := by
        rw [List.filter_eq_nil_iff]
        intro e he hek
        simp only [decide_eq_true_eq] at hek
        apply hnd.1
        rw [hk, ← hek]
        exact List.mem_map_of_mem Prod.fst he
      simp [List.filter_cons, hk, hnone]
    · have hk' : ¬ k = kv.1 := fun e => hk e.symm
      simp only [List.filter_cons, hk, decide_False, Bool.false_eq_true, if_false,
        List.map_cons, List.mem_cons, hk', false_or]
      exact ih hnd.2

/-! ## Facts about the encoded query string -/

theorem queryPair_length_pos (k value : String) : 0 < (queryPair k value).length := by
  simp only [queryPair, String.length_append]
  have : "=".length = 1 := rfl
  omega

theorem foldl_writePair (pieces : List String) (buf : String)
    (hpos : ∀ piece ∈ pieces, 0 < piece.length) :
    pieces.foldl writePair buf =
      if pieces = [] then buf
      else (if buf.length > 0 then buf ++ "&" else buf) ++ joinWith "&" pieces := by
  induction pieces generalizing buf with
  | nil => rfl
  | cons x rest ih =>
    have hx : 0 < x.length := hpos x (List.mem_cons_self _ _)
    have hrest : ∀ piece ∈ rest, 0 < piece.length :=
      fun piece hp => hpos piece (List.mem_cons_of_mem _ hp)
    rw [List.foldl_cons, ih _ hrest]
    cases rest with
    | nil => simp [writePair, joinWith]
    | cons y ys =>
      have hlen : (writePair buf x).length > 0 := by
        simp only [writePair, String.length_append]
        omega
      simp only [reduceCtorEq, if_false, hlen, if_true, joinWith]
      simp only [writePair, String.append_assoc]

theorem Encode_eq_foldl (v : Values) :
    Values.Encode v =
      ((sortStrings v.keys).flatMap (fun k => (Values.index v k).map (queryPair k))).foldl
        writePair "" := by
  have hinner : ∀ (k : String) (vs : List String) (buf : String),
      vs.foldl (fun buf value =>
        (if buf.length > 0 then buf ++ "&" else buf) ++ QueryEscape k ++ "=" ++
          QueryEscape value) buf = (vs.map (queryPair k)).foldl writePair buf := by
    intro k vs
    induction vs with
    | nil => intro buf; rfl
    | cons x xs ih =>
      intro buf
      simp only [List.foldl_cons, List.map_cons, ih]
      simp only [writePair, queryPair, String.append_assoc]
  have houter : ∀ (keys : List String) (buf : String),
      keys.foldl (fun buf k =>
        (Values.index v k).foldl (fun buf value =>
          (if buf.length > 0 then buf ++ "&" else buf) ++ QueryEscape k ++ "=" ++
            QueryEscape value) buf) buf =
      (keys.flatMap (fun k => (Values.index v k).map (queryPair k))).foldl writePair buf := by
    intro keys
    induction keys with
    | nil => intro buf; rfl
    | cons k ks ih =>
      intro buf
      rw [List.foldl_cons, ih, hinner, List.flatMap_cons, List.foldl_append]
  exact houter _ _

theorem Encode_eq_encodePairs (v : Values) :
    Values.Encode v = encodePairs (sortStrings v.keys) (Values.index v) := by
  rw [Encode_eq_foldl, foldl_writePair]
  · simp only [encodePairs]
    split
    · rename_i h
      rw [h]
      rfl
    · simp
  · intro piece hp
    simp only [List.mem_flatMap, List.mem_map] at hp
    obtain ⟨k, -, x, -, rfl⟩ := hp
    exact queryPair_length_pos k x

/-- Where no key stands twice in the raw query, the code does what the merge asks: whatever
the order in which the loop visits the entries of the request's query, the query string is the
encoding, keys ascending and each once, of the union of the request's keys and those of
`extra`, a key of the request with the request's value and a key of `extra` alone with the
values `extra` holds for it. -/
theorem augmentRequestQuery_merges_distinct (pairs : List (String × String)) (visit extra : Values)
    (hv : visit.Perm (Query pairs)) (hdistinct : (pairs.map Prod.fst).Nodup) :
    (augmentRequestQuery visit extra).1 =
      encodePairs (mergedKeys pairs extra) (mergedValues pairs extra) ∧
    (mergedKeys pairs extra).Sorted StrLE ∧ (mergedKeys pairs extra).Nodup ∧
    (∀ k, k ∈ mergedKeys pairs extra ↔ k ∈ pairs.map Prod.fst ∨ k ∈ extra.map Prod.fst) := by
  obtain ⟨hnd, -, hidx⟩ := Query_facts pairs
  have hndv : (visit.map Prod.fst).Nodup := (hv.map Prod.fst).nodup_iff.mpr hnd
  have hperm : (mergedKeys pairs extra).Perm ((pairs.map Prod.fst ++ extra.map Prod.fst).dedup) :=
    List.perm_insertionSort _ _
  have hmem : ∀ k, k ∈ mergedKeys pairs extra ↔ k ∈ pairs.map Prod.fst ∨ k ∈ extra.map Prod.fst := by
    intro k
    rw [hperm.mem_iff, List.mem_dedup, List.mem_append]
  have hvals : Values.index (setAll visit extra) = mergedValues pairs extra := by
    funext k
    rw [index_setAll visit extra k hndv, index_perm visit (Query pairs) k hv hnd, hidx k]
    exact last_value_of_distinct pairs k _ hdistinct
  have hkeys : sortStrings (setAll visit extra).keys = mergedKeys pairs extra := by
    apply sortStrings_perm
    apply (List.perm_ext_iff_of_nodup (List.nodup_dedup _) (List.nodup_dedup _)).mpr
    intro k
    have h1 := mem_keys_setAll visit extra k
    simp only [Values.keys] at h1
    rw [h1, List.mem_dedup, List.mem_dedup, List.mem_append]
    have h2 : (∃ arr, (k, arr) ∈ visit ∧ arr ≠ []) ↔ k ∈ pairs.map Prod.fst := by
      rw [← mem_Query_keys]
      constructor
      · rintro ⟨arr, ha, hne⟩
        exact ⟨arr, hv.mem_iff.mp ha, hne⟩
      · rintro ⟨arr, ha, hne⟩
        exact ⟨arr, hv.mem_iff.mpr ha, hne⟩
    rw [h2]
  refine ⟨?_, sortStrings_sorted _, hperm.nodup_iff.mpr (List.nodup_dedup _), hmem⟩
  rw [augmentRequestQuery_eq, Encode_eq_encodePairs, hkeys, hvals]

/-- The merge of the request query `a=1&b=2` with `extra` = {b: 9, c: 3}. -/
theorem augmentRequestQuery_example :
    (augmentRequestQuery (Query [("a", "1"), ("b", "2")]) [("b", ["9"]), ("c", ["3"])]).1 =
      "a=1&b=2&c=3" := by
  decide

/-! ## Facts about hex and base64 -/

theorem base64Value_base64Char :
    ∀ n, n < 64 → base64Value (base64Char n) = some n ∧ base64Char n ≠ '=' := by
  decide

theorem lowerhex_mem : ∀ n, n < 16 → lowerhex n ∈ "0123456789abcdef".data := by
  decide

theorem ofNat_toNat (b : UInt8) (n : Nat) (h : n = b.toNat) : UInt8.ofNat n = b := by
  apply UInt8.toNat.inj
  have hlt := UInt8.toNat_lt_size b
  have hsize : UInt8.size = 256 := rfl
  have hmod : (UInt8.ofNat n).toNat = n % 256 := rfl
  rw [hmod, h]
  omega

theorem base64Decode_quad (b0 b1 b2 : UInt8) (rest : List UInt8) (tail : List Char)
    (htail : base64Decode tail = some rest) :
    base64Decode (base64Char (b0.toNat / 4) :: base64Char (b0.toNat % 4 * 16 + b1.toNat / 16) ::
      base64Char (b1.toNat % 16 * 4 + b2.toNat / 64) :: base64Char (b2.toNat % 64) :: tail) =
      some (b0 :: b1 :: b2 :: rest) := by
  have h0 := UInt8.toNat_lt_size b0
  have h1 := UInt8.toNat_lt_size b1
  have h2 := UInt8.toNat_lt_size b2
  have hsize : UInt8.size = 256 := rfl
  obtain ⟨e0, -⟩ := base64Value_base64Char (b0.toNat / 4) (by omega)
  obtain ⟨e1, -⟩ := base64Value_base64Char (b0.toNat % 4 * 16 + b1.toNat / 16) (by omega)
  obtain ⟨e2, -⟩ := base64Value_base64Char (b1.toNat % 16 * 4 + b2.toNat / 64) (by omega)
  obtain ⟨e3, n3⟩ := base64Value_base64Char (b2.toNat % 64) (by omega)
  rw [base64Decode, if_neg (fun h => n3 h.2), e0, e1, e2, e3, htail]
  simp only [Option.some.injEq, List.cons.injEq, and_true]
  exact ⟨ofNat_toNat b0 _ (by omega), ofNat_toNat b1 _ (by omega), ofNat_toNat b2 _ (by omega)⟩

theorem base64Decode_base64Chars (bytes : List UInt8) :
    base64Decode (base64Chars bytes) = some bytes := by
  induction bytes using base64Chars.induct with
  | case1 => rfl
  | case2 b0 =>
    have h0 := UInt8.toNat_lt_size b0
    have hsize : UInt8.size = 256 := rfl
    obtain ⟨e0, -⟩ := base64Value_base64Char (b0.toNat / 4) (by omega)
    obtain ⟨e1, -⟩ := base64Value_base64Char (b0.toNat % 4 * 16) (by omega)
    rw [base64Chars, base64Decode, if_pos ⟨rfl, rfl⟩, if_pos rfl, e0, e1]
    simp only [Option.some.injEq, List.cons.injEq, and_true]
    exact ofNat_toNat b0 _ (by omega)
  | case3 b0 b1 =>
    have h0 := UInt8.toNat_lt_size b0
    have h1 := UInt8.toNat_lt_size b1
    have hsize : UInt8.size = 256 := rfl
    obtain ⟨e0, -⟩ := base64Value_base64Char (b0.toNat / 4) (by omega)
    obtain ⟨e1, -⟩ := base64Value_base64Char (b0.toNat % 4 * 16 + b1.toNat / 16) (by omega)
    obtain ⟨e2, n2⟩ := base64Value_base64Char (b1.toNat % 16 * 4) (by omega)
    rw [base64Chars, base64Decode, if_pos ⟨rfl, rfl⟩, if_neg n2, e0, e1, e2]
    simp only [Option.some.injEq, List.cons.injEq, and_true]
    exact ⟨ofNat_toNat b0 _ (by omega), ofNat_toNat b1 _ (by omega)⟩
  | case4 b0 b1 b2 rest ih =>
    rw [base64Chars]
    exact base64Decode_quad b0 b1 b2 rest _ ih

theorem sprintfHex_length (bytes : List UInt8) : (sprintfHex bytes).length = 2 * bytes.length := by
  simp only [sprintfHex, String.length]
  induction bytes with
  | nil => rfl
  | cons b bs ih => simp only [List.flatMap_cons, List.length_append, ih, List.length_cons,
      List.length_nil]; omega

theorem sprintfHex_digits (bytes : List UInt8) :
    ∀ c ∈ (sprintfHex bytes).data, c ∈ "0123456789abcdef".data := by
  intro c hc
  simp only [sprintfHex, List.mem_flatMap, List.mem_cons, List.mem_singleton] at hc
  obtain ⟨b, -, hb⟩ := hc
  have hlt := UInt8.toNat_lt_size b
  have hsize : UInt8.size = 256 := rfl
  simp only [List.not_mem_nil, or_false] at hb
  rcases hb with rfl | rfl
  · exact lowerhex_mem _ (by omega)
  · exact lowerhex_mem _ (by omega)

set_option maxRecDepth 100000 in
/-- The digest of "abc", as FIPS 180-4 lists it. -/
theorem hashSHA256_abc :
    hashSHA256 [0x61, 0x62, 0x63] =
      "ba7816bf8f01cfea414140de5dae2223b00361a396177a9cb410ff61f20015ad" := by
  decide

set_option maxRecDepth 100000 in
/-- The digest of the empty message, d41d8cd98f00b204e9800998ecf8427e in RFC 1321, in
base64. -/
theorem hashMD5_empty : hashMD5 [] = "1B2M2Y8AsgTpgAmY7PhCfg==" := by
  decide

theorem sha256Sum_length (content : List UInt8) : (sha256Sum content).length = 32 := by
  simp [sha256Sum, bigEndian32]

theorem md5Sum_length (content : List UInt8) : (md5Sum content).length = 16 := by
  simp [md5Sum, littleEndian32]

/-! ## The claims -/

/-- C1: when `onEC2` yields false, `checkKeys` sends no request to the metadata service and
leaves held the record read from the three environment variables (no expiration) when none was
held, and the record held before when one was; apart from `Keys`, the state it leaves is the
one it found or the one a call of `onEC2` makes of it, so `getIAMRoleCredentials` has not
run. -/
theorem checkKeys_off_ec2 (h : Host) (p : Process) (hoff : (onEC2 h p).1 = false) :
    (checkKeys h p).requests = p.requests ∧
    (checkKeys h p).Keys =
      some (match p.Keys with
        | none =>
          { AccessKeyID := h.getenv h.envAccessKeyID
            SecretAccessKey := h.getenv h.envSecretAccessKey
            SecurityToken := h.getenv h.envSecurityToken
            Expiration := none }
        | some held => held) ∧
    (checkKeys h p = { p with Keys := (checkKeys h p).Keys } ∨
      checkKeys h p = { (onEC2 h p).2 with Keys := (checkKeys h p).Keys }) := by
  have hset := onEC2_setKeys h p (some (startingKeys h p))
  have h0 : (onEC2 h { p with Keys := some (startingKeys h p) }).1 = false := by
    rw [hset]; exact hoff
  have hagain := onEC2_again h h { p with Keys := some (startingKeys h p) }
  have hshape : checkKeys h p = { p with Keys := some (startingKeys h p) } ∨
      checkKeys h p = { (onEC2 h p).2 with Keys := some (startingKeys h p) } := by
    rw [checkKeys_steps]
    rcases refreshIf_off h (decide ((startingKeys h p).AccessKeyID = "")) _ h0 with e1 | e1
    · rw [e1]
      rcases refreshIf_off h (h.expired (heldKeys { p with Keys := some (startingKeys h p) }))
        _ h0 with e2 | e2
      · exact Or.inl e2
      · right; rw [e2, hset]
    · rw [e1]
      have h1 : (onEC2 h (onEC2 h { p with Keys := some (startingKeys h p) }).2).1 = false := by
        rw [hagain]; exact h0
      rcases refreshIf_off h
        (h.expired (heldKeys (onEC2 h { p with Keys := some (startingKeys h p) }).2))
        _ h1 with e2 | e2
      · right; rw [e2, hset]
      · right; rw [e2, hagain, hset]
  have hR := (onEC2_frame h p).2
  rcases hshape with e | e
  · refine ⟨by rw [e], by rw [e]; rfl, Or.inl ?_⟩
    rw [e]
  · refine ⟨by rw [e]; exact hR, by rw [e]; rfl, Or.inr ?_⟩
    rw [e]

theorem checkKeys_off_ec2_witness :
    (onEC2 workstation {}).1 = false ∧
    (checkKeys workstation {}).requests = [] ∧
    (checkKeys workstation {}).Keys =
      some { AccessKeyID := "AKIA...", SecretAccessKey := "secret", SecurityToken := "",
             Expiration := none } :=
  ⟨by decide, (checkKeys_off_ec2 workstation {} (by decide)).1,
    (checkKeys_off_ec2 workstation {} (by decide)).2.1⟩

/-- C2: when `onEC2` yields true and the record `checkKeys` starts from (the one held, or the
one read from the environment when none is held) has an empty access key or is expired,
`checkKeys` ends right after a call of `getIAMRoleCredentials`, made in a later state `q` of
the same process, and holds exactly the record that call returned. -/
theorem checkKeys_on_ec2 (h : Host) (p : Process) (hon : (onEC2 h p).1 = true)
    (hneed : (startingKeys h p).AccessKeyID = "" ∨ h.expired (startingKeys h p) = true) :
    ∃ q : Process, p.requests <+: q.requests ∧
      checkKeys h p =
        { (getIAMRoleCredentials h q).2 with Keys := some (getIAMRoleCredentials h q).1 } := by
  have h0 : (onEC2 h { p with Keys := some (startingKeys h p) }).1 = true := by
    rw [onEC2_setKeys]; exact hon
  rw [checkKeys_steps]
  by_cases he : (startingKeys h p).AccessKeyID = ""
  · simp only [he, decide_True]
    obtain ⟨e1, o1⟩ := refreshIf_on h _ h0
    have hpre : p.requests <+: (refreshIf h true { p with Keys := some (startingKeys h p) }).requests := by
      rw [e1]
      have := (getIAMRoleCredentials_frame h (onEC2 h { p with Keys := some (startingKeys h p) }).2).2.2.2
      rw [(onEC2_frame h _).2] at this
      exact this
    cases hx : h.expired (heldKeys (refreshIf h true { p with Keys := some (startingKeys h p) }))
    · exact ⟨(onEC2 h { p with Keys := some (startingKeys h p) }).2,
        by rw [(onEC2_frame h _).2], by rw [refreshIf, if_neg (by simp)]; exact e1⟩
    · obtain ⟨e2, -⟩ := refreshIf_on h _ o1
      exact ⟨(onEC2 h (refreshIf h true { p with Keys := some (startingKeys h p) })).2,
        by rw [(onEC2_frame h _).2]; exact hpre, e2⟩
  · have hx : h.expired (startingKeys h p) = true := hneed.resolve_left he
    simp only [he, decide_False, refreshIf, Bool.false_eq_true, if_false]
    have hh : heldKeys { p with Keys := some (startingKeys h p) } = startingKeys h p := rfl
    rw [hh, hx]
    obtain ⟨e2, -⟩ := refreshIf_on h _ h0
    simp only [refreshIf] at e2
    exact ⟨(onEC2 h { p with Keys := some (startingKeys h p) }).2,
      by rw [(onEC2_frame h _).2], e2⟩

theorem checkKeys_on_ec2_witness :
    (onEC2 instanceWithRole {}).1 = true ∧
    (startingKeys instanceWithRole {}).AccessKeyID = "" ∧
    (checkKeys instanceWithRole {}).Keys =
      some { AccessKeyID := "ASIA...", SecretAccessKey := "served", SecurityToken := "token",
             Expiration := some 5000 } ∧
    ∃ q : Process, ({} : Process).requests <+: q.requests ∧
      checkKeys instanceWithRole {} =
        { (getIAMRoleCredentials instanceWithRole q).2 with
          Keys := some (getIAMRoleCredentials instanceWithRole q).1 } :=
  ⟨by decide, by decide, by decide,
    checkKeys_on_ec2 instanceWithRole {} (by decide) (Or.inl (by decide))⟩

/-- C3: from the unchecked state the first call of `onEC2` dials exactly once and marks the
location checked; every later call, whatever the network would answer then, dials no more and
returns the boolean of the first call. -/
theorem onEC2_probes_once (h : Host) (later : List Host) (p : Process)
    (hu : p.loc = none ∨ ∃ l, p.loc = some l ∧ l.checked = false) :
    (onEC2 h p).2.dials = p.dials + 1 ∧
    (onEC2 h p).2.loc = some { ec2 := (onEC2 h p).1, checked := true } ∧
    (onEC2Calls later (onEC2 h p).2).1 = List.replicate later.length (onEC2 h p).1 ∧
    (onEC2Calls later (onEC2 h p).2).2.dials = p.dials + 1 := by
  have hloc := onEC2_loc h p
  rw [onEC2Calls_checked later _ _ hloc rfl]
  refine ⟨?_, hloc, rfl, ?_⟩ <;> rw [onEC2_unchecked h p hu]

theorem onEC2_probes_once_witness :
    (onEC2 instanceWithRole {}).2.dials = 1 ∧
    (onEC2 instanceWithRole {}).2.loc = some { ec2 := true, checked := true } ∧
    (onEC2Calls [workstation, workstation] (onEC2 instanceWithRole {}).2).1 = [true, true] ∧
    (onEC2Calls [workstation, workstation] (onEC2 instanceWithRole {}).2).2.dials = 1 :=
  onEC2_probes_once instanceWithRole [workstation, workstation] {} (Or.inl rfl)

/-- C4: the code at the request query `a=1&b=2&b=3` with `extra` = {b: 9, c: 3}.  The merged
query of the claim has the request's values for `b`, so its encoding is `a=1&b=2&b=3&c=3`; the
code sets `a=1&b=3&c=3`, having replaced `b=2` by `b=3`. -/
theorem augmentRequestQuery_loses_request_value :
    Query [("a", "1"), ("b", "2"), ("b", "3")] = [("a", ["1"]), ("b", ["2", "3"])] ∧
    encodePairs (mergedKeys [("a", "1"), ("b", "2"), ("b", "3")] [("b", ["9"]), ("c", ["3"])])
      (mergedValues [("a", "1"), ("b", "2"), ("b", "3")] [("b", ["9"]), ("c", ["3"])]) =
      "a=1&b=2&b=3&c=3" ∧
    (augmentRequestQuery (Query [("a", "1"), ("b", "2"), ("b", "3")])
      [("b", ["9"]), ("c", ["3"])]).1 = "a=1&b=3&c=3" := by
  decide

/-- C5: the code at the request query `k=1&k=2` with nothing in `extra`: of the two values
of `k` only the last reaches the map and the query string. -/
theorem augmentRequestQuery_keeps_last_value :
    Query [("k", "1"), ("k", "2")] = [("k", ["1", "2"])] ∧
    augmentRequestQuery (Query [("k", "1"), ("k", "2")]) [] = ("k=2", [("k", ["2"])]) := by
  decide

/-- C6: on a request whose body holds the bytes `b`, `readAndReplaceBody` returns `b` and
leaves a body that reads in full, without error, as `b` again, so a second call returns `b`
too; on a request without a body it returns no bytes and leaves the request as it was. -/
theorem readAndReplaceBody_round_trip (req : Request) :
    (∀ body, req.Body = some body →
      (readAndReplaceBody req).1 = body.unread ∧
      (∃ body', (readAndReplaceBody req).2.Body = some body' ∧
        (ReadAll body').1 = body.unread ∧ (ReadAll body').2.1 = false) ∧
      (readAndReplaceBody (readAndReplaceBody req).2).1 = body.unread) ∧
    (req.Body = none → readAndReplaceBody req = ([], req)) := by
  refine ⟨?_, ?_⟩
  · intro body hb
    refine ⟨?_, ⟨NewReader body.unread, ?_, rfl, rfl⟩, ?_⟩ <;>
      simp [readAndReplaceBody, hb, ReadAll, NewReader]
  · intro hb
    simp [readAndReplaceBody, hb]

theorem readAndReplaceBody_round_trip_witness :
    (readAndReplaceBody { Body := some { unread := [104, 105], failing := true } }).1 =
      [104, 105] ∧
    (∃ body', (readAndReplaceBody
        { Body := some { unread := [104, 105], failing := true } }).2.Body = some body' ∧
      (ReadAll body').1 = [104, 105] ∧ (ReadAll body').2.1 = false) ∧
    (readAndReplaceBody (readAndReplaceBody
      { Body := some { unread := [104, 105], failing := true } }).2).1 = [104, 105] :=
  (readAndReplaceBody_round_trip { Body := some { unread := [104, 105], failing := true } }).1
    { unread := [104, 105], failing := true } rfl

/-- C7 (the claim as it stands, refuted): on a role list of the line "ok" and a line of 70000
letters, `getIAMRoleList` returns the first line alone, which is not the list of the lines of
the body. -/
theorem getIAMRoleList_stops_at_long_line :
    instanceWithLongLine.send 0 securityCredentialsURL = some longLineBody ∧
    (getIAMRoleList instanceWithLongLine {}).1 = ["ok"] ∧
    (textLines longLineBody).length = 2 ∧
    (getIAMRoleList instanceWithLongLine {}).1 ≠ textLines longLineBody := by
  have hsend : instanceWithLongLine.send 0 securityCredentialsURL = some longLineBody := by
    show (if securityCredentialsURL = securityCredentialsURL then some longLineBody else none) =
      some longLineBody
    exact if_pos rfl
  have hnew : instanceWithLongLine.newRequest securityCredentialsURL = true := rfl
  have hroles : (getIAMRoleList instanceWithLongLine {}).1 = ["ok"] := by
    rw [getIAMRoleList_of_body instanceWithLongLine {} longLineBody hnew hsend, longLineBody,
      long_line_length 70000]
    exact scanLoop_long_line (70000 + 2) 70000 _ (by decide)
  have hlines : (textLines longLineBody).length = 2 :=
    textLines_long_line 70000 (by decide)
  refine ⟨hsend, hroles, hlines, ?_⟩
  intro h
  rw [← h, hroles] at hlines
  exact absurd hlines (by decide)

/-- C7, amended: on a response body whose lines are each shorter than 64 KiB,
`getIAMRoleList` returns exactly the newline-delimited lines of the body, in order; on every
body, `getIAMRoleCredentials` returns an empty record without a further request when the list
`getIAMRoleList` returns is empty, and otherwise requests nothing but the base URL followed by
the first entry of that list. -/
theorem metadata_client_first_role (h : Host) (p : Process) :
    (∀ body, h.newRequest securityCredentialsURL = true →
      h.send p.requests.length securityCredentialsURL = some body →
      linesFit body →
      (getIAMRoleList h p).1 = textLines body) ∧
    ((getIAMRoleList h p).1 = [] →
      getIAMRoleCredentials h p = ({}, (getIAMRoleList h p).2)) ∧
    (∀ role rest, (getIAMRoleList h p).1 = role :: rest →
      (getIAMRoleCredentials h p).2.requests =
        (getIAMRoleList h p).2.requests ++
          (if h.newRequest (securityCredentialsURL ++ role) = true
            then [securityCredentialsURL ++ role] else [])) := by
  refine ⟨?_, ?_, ?_⟩
  · intro body hn hs hfit
    rw [getIAMRoleList_of_body h p body hn hs]
    exact scanLoop_eq_lines _ _ _ (Nat.lt_succ_self _) hfit
  · intro hr
    simp only [getIAMRoleCredentials, hr]
  · intro role rest hr
    cases hn : h.newRequest (securityCredentialsURL ++ role)
    · simp [getIAMRoleCredentials, hr, hn]
    · cases hs : h.send (getIAMRoleList h p).2.requests.length (securityCredentialsURL ++ role) with
      | none => simp [getIAMRoleCredentials, hr, hn, hs]
      | some body =>
        cases hu : (h.unmarshal body {}).2 <;> simp [getIAMRoleCredentials, hr, hn, hs, hu]

theorem metadata_client_first_role_witness :
    instanceWithRole.send 0 securityCredentialsURL = some "role-a\nrole-b" ∧
    linesFit "role-a\nrole-b" ∧
    (getIAMRoleList instanceWithRole {}).1 = ["role-a", "role-b"] ∧
    (getIAMRoleCredentials instanceWithRole {}).2.requests =
      [securityCredentialsURL, securityCredentialsURL ++ "role-a"] :=
  ⟨by decide, by decide,
    ((metadata_client_first_role instanceWithRole {}).1 "role-a\nrole-b" (by decide)
      (by decide) (by decide)).trans (by decide),
    ((metadata_client_first_role instanceWithRole {}).2.2 "role-a" ["role-b"]
      (by decide)).trans (by decide)⟩

/-- C8: the metadata client returns plain values whatever happens to its requests:
`getIAMRoleList` gives the empty list when its request cannot be built or the transport fails,
and `getIAMRoleCredentials` gives the empty record when the role list is empty, when the
transport of the credentials request fails, when decoding the body fails, whatever the
decoder had filled in by then, and when the credentials request cannot be built. -/
theorem metadata_client_absorbs_failures (h : Host) (p : Process) :
    (h.newRequest securityCredentialsURL = false → (getIAMRoleList h p).1 = []) ∧
    (h.send p.requests.length securityCredentialsURL = none → (getIAMRoleList h p).1 = []) ∧
    ((getIAMRoleList h p).1 = [] → (getIAMRoleCredentials h p).1 = {}) ∧
    (∀ role rest, (getIAMRoleList h p).1 = role :: rest →
      h.send (getIAMRoleList h p).2.requests.length (securityCredentialsURL ++ role) = none →
      (getIAMRoleCredentials h p).1 = {}) ∧
    (∀ role rest body, (getIAMRoleList h p).1 = role :: rest →
      h.send (getIAMRoleList h p).2.requests.length (securityCredentialsURL ++ role) = some body →
      (h.unmarshal body {}).2 = false →
      (getIAMRoleCredentials h p).1 = {}) ∧
    (∀ role rest, (getIAMRoleList h p).1 = role :: rest →
      h.newRequest (securityCredentialsURL ++ role) = false →
      (getIAMRoleCredentials h p).1 = {}) := by
  refine ⟨?_, ?_, ?_, ?_, ?_, ?_⟩
  · intro hn
    simp [getIAMRoleList, hn]
  · intro hs
    cases hn : h.newRequest securityCredentialsURL <;> simp [getIAMRoleList, hn, hs]
  · intro hr
    simp only [getIAMRoleCredentials, hr]
  · intro role rest hr hs
    cases hn : h.newRequest (securityCredentialsURL ++ role) <;>
      simp [getIAMRoleCredentials, hr, hn, hs]
  · intro role rest body hr hs hu
    cases hn : h.newRequest (securityCredentialsURL ++ role) <;>
      simp [getIAMRoleCredentials, hr, hn, hs, hu]
  · intro role rest hr hn
    simp [getIAMRoleCredentials, hr, hn]

theorem metadata_client_absorbs_failures_witness :
    (getIAMRoleList instanceWithBrokenBody {}).1 = ["role-a", "role-b"] ∧
    instanceWithBrokenBody.unmarshal "cut short" {} = ({ AccessKeyID := "ASIA..." }, false) ∧
    (getIAMRoleCredentials instanceWithBrokenBody {}).1 = {} :=
  ⟨by decide, by decide,
    (metadata_client_absorbs_failures instanceWithBrokenBody {}).2.2.2.2.1 "role-a" ["role-b"]
      "cut short" (by decide) (by decide) (by decide)⟩

/-- C9: for every content, `hashSHA256` is 64 characters, each one of `0-9a-f`, the lowercase
hex of the 32 bytes of the digest, and `hashMD5` is valid standard base64 that decodes back to
the 16 bytes of the digest. -/
theorem hash_formats (content : List UInt8) :
    (hashSHA256 content).length = 64 ∧
    (∀ c ∈ (hashSHA256 content).data, c ∈ "0123456789abcdef".data) ∧
    hashSHA256 content = sprintfHex (sha256Sum content) ∧ (sha256Sum content).length = 32 ∧
    base64Decode (hashMD5 content).data = some (md5Sum content) ∧
    (md5Sum content).length = 16 := by
  refine ⟨?_, sprintfHex_digits _, rfl, sha256Sum_length content, ?_, md5Sum_length content⟩
  · rw [hashSHA256, sprintfHex_length, sha256Sum_length]
  · exact base64Decode_base64Chars _

/-- C10: `serviceAndRegion` never indexes or slices out of range: it returns a pair for every
host, and a host with fewer than four labels yields (first label, "us-east-1") unless the first
label starts with "s3-", in which case the service is "s3" and the region is the rest of the
label. -/
theorem serviceAndRegion_never_panics (host : String) :
    (serviceAndRegion host).isSome = true ∧
    (labelCount host < 4 → HasPrefix (firstLabel host) "s3-" = false →
      serviceAndRegion host = some (firstLabel host, "us-east-1")) ∧
    (labelCount host < 4 → HasPrefix (firstLabel host) "s3-" = true →
      serviceAndRegion host = some ("s3", String.mk ((firstLabel host).data.drop 3))) := by
  obtain ⟨rest, h, hl⟩ := Split_shape host
  have hlen : (Split host '.').length = labelCount host := by simp [h, hl]
  by_cases h4 : 4 ≤ labelCount host
  · have hge : (firstLabel host :: rest).length ≥ 4 := by simp; omega
    refine ⟨?_, fun hlt => absurd h4 (by omega), fun hlt => absurd h4 (by omega)⟩
    match rest, hl with
    | [], hl => simp at hl; omega
    | r :: rest', hl =>
      have h2 : 2 ≤ rest'.length := by simp at hl; omega
      by_cases hr : r = "s3" <;> simp [serviceAndRegion, h, hr, h2]
  · have hlt : ¬ 3 ≤ rest.length := by omega
    cases hp : HasPrefix (firstLabel host) "s3-"
    · simp [serviceAndRegion, h, hp, hlt]
    · obtain ⟨h2, h3⟩ := slices_of_s3_prefix _ hp
      simp [serviceAndRegion, h, hp, hlt, h2, h3]

theorem serviceAndRegion_never_panics_witness :
    labelCount "localhost" < 4 ∧ HasPrefix (firstLabel "localhost") "s3-" = false ∧
    serviceAndRegion "localhost" = some ("localhost", "us-east-1") :=
  ⟨by decide, by decide,
    (serviceAndRegion_never_panics "localhost").2.1 (by decide) (by decide)⟩

end AwsAuth
